import Mathlib

/-!
Shallow embedding of the Doris BE tablet read path (`be/src/olap/reader.cpp`):
the `CollectIterator` k-way merge over segment cursors, the three key-model
row-production policies of `Reader`, the return-column / bloom-filter /
scan-range initialization routines, and `Reader::close`.

Machine integers that matter (the `uint32_t` conversion in
`std::set<uint32_t>::erase`) are modelled with explicit `% 2^32`.
-/

namespace Doris

/-- OLAP status codes surfaced by the read path (subset used by `reader.cpp`). -/
inductive OLAPStatus
  | success
  | dataEof
  | versionNotExist
  | inputParameterError
  | readerGetIteratorError
  | mallocError
  deriving DecidableEq, Repr

/-- `ReaderType` from `ReaderParams`. -/
inductive ReaderType
  | query
  | alterTable
  | baseCompaction
  | cumulativeCompaction
  | checksum
  deriving DecidableEq, Repr

/-- `KeysType` of the tablet: duplicate, unique or aggregate keys. -/
inductive KeysType
  | dupKeys
  | uniqueKeys
  | aggKeys
  deriving DecidableEq, Repr

/-- Three-way full-key comparison (`RowCursor::full_key_cmp`): lexicographic
over the key columns, returning a negative, zero or positive `Int`. -/
def keyCmp : List Int → List Int → Int
  | [], [] => 0
  | [], _ :: _ => -1
  | _ :: _, [] => 1
  | a :: as, b :: bs => if a < b then -1 else if b < a then 1 else keyCmp as bs

/-- A physical row as seen by the collect iterator: its full key, the upper
bound of its segment's version range (`ChildCtx::version`), and the
segment-level delete flag (`ColumnData::delete_flag`, `ChildCtx::_is_delete`). -/
structure URow where
  key : List Int
  version : Nat
  del : Bool
  deriving DecidableEq, Repr

instance : Inhabited URow := ⟨⟨[], 0, false⟩⟩

/-- `CollectIterator::ChildCtxComparator::operator()`: the strict "less"
relation handed to `std::priority_queue`.  `a` is less than `b` when `a`'s
key is greater, or keys are equal and `a`'s version is greater. -/
def childCtxLess (a b : URow) : Bool :=
  if keyCmp a.key b.key ≠ 0 then decide (keyCmp a.key b.key > 0)
  else decide (a.version > b.version)

/-- The non-strict order induced by the heap comparator: `a` pops no later
than `b`, i.e. `(key, version)` of `a` is lexicographically ≤ that of `b`. -/
def rowLE (a b : URow) : Prop := childCtxLess a b = false

instance (a b : URow) : Decidable (rowLE a b) := by
  unfold rowLE; infer_instance

/-!
`CollectIterator` merge mode.  The heap (`MergeHeap`) holds one `ChildCtx`
per live segment cursor; `std::priority_queue::top` is the maximum under
`ChildCtxComparator`, i.e. the row with lexicographically least
`(full key asc, version asc)`.  `heapTop` selects that top row among the
children's current rows and returns the advanced children (the popped child
re-pushed without its consumed row, exhausted children dropped), mirroring
`CollectIterator::_merge_next`.
-/

/-- Select the `std::priority_queue` top among the children's current rows:
the row not `childCtxLess` than any other current row (ties resolved to the
earlier child).  Returns that row and the remaining children. -/
def heapTop : List (List URow) → Option (URow × List (List URow))
  | [] => none
  | [] :: cs => heapTop cs
  | (r :: rs) :: cs =>
    match heapTop cs with
    | none => some (r, [rs])
    | some (r', cs') =>
      if childCtxLess r r' then some (r', (r :: rs) :: cs')
      else some (r, rs :: cs)

/-- Total number of rows left across all children. -/
def totalLen (cs : List (List URow)) : Nat := (cs.map List.length).sum

/-- The merge loop with fuel: emit the heap top, advance, repeat
(`CollectIterator::_merge_next` driven to exhaustion). -/
def mergeRows : Nat → List (List URow) → List URow
  | 0, _ => []
  | n + 1, cs =>
    match heapTop cs with
    | none => []
    | some (r, cs') => r :: mergeRows n cs'

/-- The ordered stream produced by `CollectIterator` in merge mode. -/
def mergeStream (cs : List (List URow)) : List URow :=
  mergeRows (totalLen cs) cs

/-!
`CollectIterator::init` and the per-key-model row production of `Reader`.
-/

/-- `CollectIterator::init` (reader.cpp:179-189): merge mode is switched off
exactly for `READER_QUERY` scans with aggregation enabled or `DUP_KEYS`. -/
def collectIterMerge (rt : ReaderType) (aggregation : Bool) (kt : KeysType) :
    Bool :=
  !(decide (rt = ReaderType.query) && (aggregation || decide (kt = KeysType.dupKeys)))

/-- The row stream `CollectIterator` delivers for one merge set: the ordered
k-way merge in merge mode, the concatenation of the children in insertion
order otherwise (`_merge_next` vs `_normal_next`). -/
def readerStream (rt : ReaderType) (aggregation : Bool) (kt : KeysType)
    (children : List (List URow)) : List URow :=
  if collectIterMerge rt aggregation kt then mergeStream children
  else children.flatten

/-- Maximal runs of equal keys in a stream ("key groups"). -/
def groupRuns : List URow → List (List URow)
  | [] => []
  | r :: rest =>
    (r :: rest.takeWhile (fun s => decide (s.key = r.key))) ::
      groupRuns (rest.dropWhile (fun s => decide (s.key = r.key)))
termination_by l => l.length
decreasing_by
  simp only [List.length_cons]
  have hdw : ∀ (p : URow → Bool) (l : List URow),
      (List.dropWhile p l).length ≤ l.length := by
    intro p l
    induction l with
    | nil => simp [List.dropWhile]
    | cons a l ih =>
      simp only [List.dropWhile]
      cases p a
      · simp
      · simpa using Nat.le_succ_of_le ih
  exact Nat.lt_succ_of_le (hdw _ rest)

/-- The key of a key group (all members share it). -/
def groupKey (g : List URow) : List Int := (g.headD default).key

/-- The delete flag a key group ends up with in `_unique_key_next_row`:
`cur_delete_flag` starts from the first row of the group and is overwritten
by each further same-key row, so it is the last row's flag. -/
def groupDelFlag (g : List URow) : Bool := g.foldl (fun _ s => s.del) false

/-- Inner accumulation loop of `Reader::_agg_key_next_row` (reader.cpp:384-403):
starting from accumulated count `cnt`, keep folding rows while the key equals
`k`, stopping at the throughput cap (`_aggregation && merged_count >
doris_scanner_row_num`), at a key change, or at EOF.  Returns the final
`merged_count` and the rows left in the stream. -/
def aggConsume (agg : Bool) (limit : Nat) (k : List Int) :
    Nat → List URow → Nat × List URow
  | cnt, [] => (cnt, [])
  | cnt, s :: rest =>
    if agg ∧ limit < cnt then (cnt, s :: rest)
    else if s.key = k then aggConsume agg limit k (cnt + 1) rest
    else (cnt, s :: rest)

/-- One call of `Reader::_agg_key_next_row` on a non-exhausted merge set:
`agg_init` from the current peek, fold the following same-key rows, return
the emitted key and the remaining stream (`_next_key` position). -/
def aggNextRow (agg : Bool) (limit : Nat) :
    List URow → Option (List Int) × List URow
  | [] => (none, [])
  | r :: rest => (some r.key, (aggConsume agg limit r.key 0 rest).2)

/-- Inner accumulation loop of `Reader::_unique_key_next_row`
(reader.cpp:428-454): like `aggConsume` (including the `DUP_KEYS` and cap
breaks), but `cur_delete_flag` is overwritten by every same-key row that is
folded in. -/
def uniqueConsume (kt : KeysType) (agg : Bool) (limit : Nat) (k : List Int) :
    Bool → Nat → List URow → Bool × Nat × List URow
  | flag, cnt, [] => (flag, cnt, [])
  | flag, cnt, s :: rest =>
    if kt = KeysType.dupKeys ∨ (agg ∧ limit < cnt) then (flag, cnt, s :: rest)
    else if s.key = k then uniqueConsume kt agg limit k s.del (cnt + 1) rest
    else (flag, cnt, s :: rest)

/-- One call of `Reader::_unique_key_next_row` (reader.cpp:409-466) on one
merge set: group rows as in the aggregate policy, but if the group's final
`cur_delete_flag` is set, count it into `rows_del_filtered` and restart on
the next key (the outer do-while); EOF mid-drop returns EOF.  Returns the
emitted key (or `none` for EOF), the remaining stream, and the increment to
`rows_del_filtered`. -/
def uniqueNextRow (kt : KeysType) (agg : Bool) (limit : Nat) :
    List URow → Option (List Int) × List URow × Nat
  | [] => (none, [], 0)
  | r :: rest =>
    let t := uniqueConsume kt agg limit r.key r.del 0 rest
    if t.1 then
      let u := uniqueNextRow kt agg limit t.2.2
      (u.1, u.2.1, u.2.2 + 1)
    else (some r.key, t.2.2, 0)
termination_by l => l.length
decreasing_by
  have hl : ∀ (flag : Bool) (cnt : Nat) (l : List URow),
      (uniqueConsume kt agg limit r.key flag cnt l).2.2.length ≤ l.length := by
    intro flag cnt l
    induction l generalizing flag cnt with
    | nil => simp [uniqueConsume]
    | cons s l' ih =>
      simp only [uniqueConsume]
      split
      · simp
      · split
        · exact le_trans (ih _ (cnt + 1)) (by simp)
        · simp
  have := hl r.del 0 rest
  simp only [List.length_cons]
  omega

/-- Driving `_unique_key_next_row` to EOF: the emitted keys and the total
increment to `rows_del_filtered` (flattened iteration of `uniqueNextRow`;
see `uniqueScan_eq_nextRow`). -/
def uniqueScan (kt : KeysType) (agg : Bool) (limit : Nat) :
    List URow → List (List Int) × Nat
  | [] => ([], 0)
  | r :: rest =>
    let t := uniqueConsume kt agg limit r.key r.del 0 rest
    let u := uniqueScan kt agg limit t.2.2
    if t.1 then (u.1, u.2 + 1) else (r.key :: u.1, u.2)
termination_by l => l.length
decreasing_by
  have hl : ∀ (flag : Bool) (cnt : Nat) (l : List URow),
      (uniqueConsume kt agg limit r.key flag cnt l).2.2.length ≤ l.length := by
    intro flag cnt l
    induction l generalizing flag cnt with
    | nil => simp [uniqueConsume]
    | cons s l' ih =>
      simp only [uniqueConsume]
      split
      · simp
      · split
        · exact le_trans (ih _ (cnt + 1)) (by simp)
        · simp
  have := hl r.del 0 rest
  simp only [List.length_cons]
  omega

/-- Driving `_agg_key_next_row` to EOF: the sequence of emitted keys
(flattened iteration of `aggNextRow`; see `aggScan_eq_nextRow`). -/
def aggScan (agg : Bool) (limit : Nat) : List URow → List (List Int)
  | [] => []
  | r :: rest => r.key :: aggScan agg limit (aggConsume agg limit r.key 0 rest).2
termination_by l => l.length
decreasing_by
  have hl : ∀ (cnt : Nat) (l : List URow),
      (aggConsume agg limit r.key cnt l).2.length ≤ l.length := by
    intro cnt l
    induction l generalizing cnt with
    | nil => simp [aggConsume]
    | cons s l' ih =>
      simp only [aggConsume]
      split
      · simp
      · split
        · exact le_trans (ih (cnt + 1)) (by simp)
        · simp
  have := hl 0 rest
  simp only [List.length_cons]
  omega

/-- The dispatch of `_next_row_func` in `Reader::init` (reader.cpp:328-340),
driven to EOF over one merge set: the emitted keys per keys type
(`_dup_key_next_row` copies each merged row through unchanged). -/
def readerEmittedKeys (rt : ReaderType) (agg : Bool) (limit : Nat)
    (kt : KeysType) (children : List (List URow)) : List (List Int) :=
  match kt with
  | KeysType.dupKeys => (readerStream rt agg kt children).map URow.key
  | KeysType.uniqueKeys =>
      (uniqueScan kt agg limit (readerStream rt agg kt children)).1
  | KeysType.aggKeys => aggScan agg limit (readerStream rt agg kt children)

/-!
`Reader::_init_return_columns` (reader.cpp:596-646).
-/

/-- OLAP column field types (subset of `FieldType` used by the Reader). -/
inductive FieldType
  | tinyint
  | smallint
  | int32
  | bigint
  | largeint
  | decimal
  | charType
  | varchar
  | date
  | datetime
  | hll
  | unknown
  deriving DecidableEq, Repr

/-- The slice of a schema column the Reader reads: `is_key`, `is_bf_column`
and the field type. -/
structure FieldInfo where
  is_key : Bool
  is_bf_column : Bool
  ftype : FieldType
  deriving DecidableEq, Repr

instance : Inhabited FieldInfo := ⟨⟨false, false, FieldType.unknown⟩⟩

structure ReturnColumnsOut where
  return_columns : List Nat
  key_cids : List Nat
  value_cids : List Nat
  deriving DecidableEq, Repr

def insertDesc (x : Nat) : List Nat → List Nat
  | [] => [x]
  | y :: ys => if y ≤ x then x :: y :: ys else y :: insertDesc x ys

/-- `std::sort(v.begin(), v.end(), std::greater<uint32_t>())`: the
descending-sorted permutation of `l`. -/
def sortDesc (l : List Nat) : List Nat := l.foldr insertDesc []

/-- The QUERY-with-delete-conditions append loop (reader.cpp:600-610): for
each delete condition, push every referenced column id not already present
(`column_set` always holds exactly the ids currently in `_return_columns`). -/
def appendDeleteColumns : List Nat → List (List Nat) → List Nat
  | rc, [] => rc
  | rc, cond :: conds =>
      appendDeleteColumns
        (cond.foldl (fun acc c => if c ∈ acc then acc else acc ++ [c]) rc) conds

/-- The key/value split of a column id list against the schema
(`tablet_schema()[id].is_key`). -/
def classifyColumns (schema : List FieldInfo) (cols : List Nat) :
    List Nat × List Nat :=
  (cols.filter (fun id => (schema.getD id default).is_key),
   cols.filter (fun id => !(schema.getD id default).is_key))

/-- `Reader::_init_return_columns`.  `deleteCondColumns`: the column ids
referenced by each delete condition held by the DeleteHandler
(`get_delete_conditions`; the handler itself lives outside this file's
sources, only the id lists matter to this routine).  Branch order is the
source's: QUERY first, then the empty-return-columns branch, then CHECKSUM,
else `OLAP_ERR_INPUT_PARAMETER_ERROR`; `_key_cids` is sorted descending at
the end. -/
def initReturnColumns (schema : List FieldInfo)
    (deleteCondColumns : List (List Nat)) (rt : ReaderType)
    (aggregation : Bool) (returnColumns : List Nat) :
    Except OLAPStatus ReturnColumnsOut :=
  if rt = ReaderType.query then
    let rc :=
      if deleteCondColumns.length ≠ 0 ∧ aggregation = true then
        appendDeleteColumns returnColumns deleteCondColumns
      else returnColumns
    let cls := classifyColumns schema returnColumns
    Except.ok ⟨rc, sortDesc cls.1, cls.2⟩
  else if returnColumns.length = 0 then
    let all := List.range schema.length
    let cls := classifyColumns schema all
    Except.ok ⟨all, sortDesc cls.1, cls.2⟩
  else if rt = ReaderType.checksum then
    let cls := classifyColumns schema returnColumns
    Except.ok ⟨returnColumns, sortDesc cls.1, cls.2⟩
  else
    Except.error OLAPStatus.inputParameterError

/-!
`CollectIterator::ChildCtx::_refresh_current_row` (reader.cpp:112-136) and
`CollectIterator::add_child` (reader.cpp:191-209).
-/

/-- `RowBlock::block_status()` values the cursor distinguishes. -/
inductive BlockStatus
  | delPartlySatisfied
  | delNotSatisfied
  deriving DecidableEq, Repr

structure RowBlock' where
  rows : List URow
  status : BlockStatus
  deriving DecidableEq, Repr

/-- One segment (`ColumnData`) as its cursor consumes it: version upper
bound, and the stream of row blocks (the block handed to the constructor
followed by the `get_next_block` results; running out of blocks is
`OLAP_ERR_DATA_EOF`). -/
structure ChildData where
  version : Nat
  blocks : List RowBlock'
  deriving DecidableEq, Repr

/-- The in-block part of `_refresh_current_row`: skip rows the delete
handler filters when the block is DEL_PARTIAL_SATISFIED, counting each into
`rows_del_filtered`.  Returns the current row if found, the filtered count,
and the rows left after the current row. -/
def refreshRows (filt : Nat → URow → Bool) (version : Nat)
    (st : BlockStatus) : List URow → Option URow × Nat × List URow
  | [] => (none, 0, [])
  | r :: rs =>
    if st = BlockStatus.delPartlySatisfied ∧ filt version r = true then
      let t := refreshRows filt version st rs
      (t.1, t.2.1 + 1, t.2.2)
    else (some r, 0, rs)

/-- `_refresh_current_row` across blocks: pull the next block whenever the
current one is exhausted; no block left means no current row
(`OLAP_ERR_DATA_EOF`).  Returns the current row and the total filtered
count. -/
def refreshBlocks (filt : Nat → URow → Bool) (version : Nat) :
    List RowBlock' → Option URow × Nat
  | [] => (none, 0)
  | b :: bs =>
    let t := refreshRows filt version b.status b.rows
    match t.1 with
    | some r => (some r, t.2.1)
    | none =>
      let u := refreshBlocks filt version bs
      (u.1, t.2.1 + u.2)

/-- `ChildCtx::init` (reader.cpp:75-87): init the row cursor, then
`_refresh_current_row`; when the refresh finds no row it returns
`OLAP_ERR_DATA_EOF` and leaves `_current_row` null, and `init` propagates
that status. -/
def childInit (filt : Nat → URow → Bool) (d : ChildData) :
    OLAPStatus × Option URow :=
  match (refreshBlocks filt d.version d.blocks).1 with
  | some r => (OLAPStatus.success, some r)
  | none => (OLAPStatus.dataEof, none)

/-- `CollectIterator::add_child`: construct the ChildCtx,
`RETURN_NOT_OK(child->init())`, drop a child with no current row returning
OK (dead code, since a successful init always has one), otherwise append it
to `_children` (and push it into the heap in merge mode).  Returns the
status and the updated children list. -/
def addChild (filt : Nat → URow → Bool) (children : List ChildData)
    (d : ChildData) : OLAPStatus × List ChildData :=
  let ini := childInit filt d
  if ini.1 ≠ OLAPStatus.success then (ini.1, children)
  else
    match ini.2 with
    | none => (OLAPStatus.success, children)
    | some _ => (OLAPStatus.success, children ++ [d])

/-!
`Reader::close` (reader.cpp:468-479) and `Reader::~Reader`
(reader.cpp:299-301).
-/

/-- The observable actions of `Reader::close`, in program order. -/
inductive CloseEvent
  | finalizeConditions
  | finalizeDeleteHandler
  | releaseDataSources (segments : List Nat)
  | deletePredicate (p : Nat)
  | deleteCollectIter (p : Nat)
  deriving DecidableEq, Repr

/-- The members of `Reader` that `close` touches; heap pointers are modelled
as numbers.  `close` neither nulls `_collect_iter` nor clears
`_col_predicates` (clearing `_own_data_sources` would be up to
`OLAPTable::release_data_sources`, outside these sources), so the member
state is carried through `close` unchanged. -/
structure ReaderCloseState where
  own_data_sources : List Nat
  col_predicates : List Nat
  collect_iter : Nat
  deriving DecidableEq, Repr

/-- `Reader::close`: finalize `_conditions` and `_delete_handler`, release
the data sources, `delete` every entry of `_col_predicates`, then
`delete _collect_iter`.  No member is reset. -/
def readerClose (s : ReaderCloseState) :
    List CloseEvent × ReaderCloseState :=
  ([CloseEvent.finalizeConditions, CloseEvent.finalizeDeleteHandler,
      CloseEvent.releaseDataSources s.own_data_sources]
    ++ s.col_predicates.map CloseEvent.deletePredicate
    ++ [CloseEvent.deleteCollectIter s.collect_iter], s)

/-- `~Reader` calls `close()`, so an explicit `close` followed by
destruction performs the events of two consecutive `close` calls. -/
def readerCloseTwice (s : ReaderCloseState) : List CloseEvent :=
  (readerClose s).1 ++ (readerClose (readerClose s).2).1

/-!
Scan-range resolution in `Reader::_attach_data_to_merge_set`
(reader.cpp:672-772).
-/

/-- `KeysParam`: the range tokens as the source's strings, and the
materialized start/end key tuples. -/
structure KeysParam where
  range : String
  end_range : String
  start_keys : List (List Int)
  end_keys : List (List Int)
  deriving DecidableEq, Repr

/-- Outcome of one iteration of the scan-range do-while for range index
`idx` (the value of `_next_key_index` on entry). -/
inductive AttachOutcome
  | eofOut
      -- returns with `*eof = true` and `OLAP_SUCCESS`, before the segment loop
  | errOut (s : OLAPStatus)
      -- error return, before the segment loop
  | oobAccess
      -- `end_keys[cur_key_index]` indexed out of bounds (undefined behavior)
  | scan (startKey : Option (List Int)) (endKey : Option (List Int))
      (findLastRow : Bool) (endKeyFindLastRow : Bool)
      -- proceeds to `prepare_block_read` on every live segment
  deriving DecidableEq, Repr

/-- Whether the iteration reaches the loop that adds segment cursors. -/
def attachAddsCursors : AttachOutcome → Bool
  | AttachOutcome.scan _ _ _ _ => true
  | _ => false

/-- The `range` dispatch (reader.cpp:707-739): `gt` returns EOF when
`start_key->cmp(*end_key) >= 0`, `ge` when `> 0`; `eq` overwrites the end
key with the start key; an unknown token is
`OLAP_ERR_READER_GET_ITERATOR_ERROR`. -/
def attachRangeDispatch (kp : KeysParam) (startKey : List Int)
    (endKey : Option (List Int)) (endFindLast : Bool) : AttachOutcome :=
  if kp.range = "gt" then
    match endKey with
    | some e =>
        if keyCmp startKey e ≥ 0 then AttachOutcome.eofOut
        else AttachOutcome.scan (some startKey) endKey true endFindLast
    | none => AttachOutcome.scan (some startKey) none true endFindLast
  else if kp.range = "ge" then
    match endKey with
    | some e =>
        if keyCmp startKey e > 0 then AttachOutcome.eofOut
        else AttachOutcome.scan (some startKey) endKey false endFindLast
    | none => AttachOutcome.scan (some startKey) none false endFindLast
  else if kp.range = "eq" then
    AttachOutcome.scan (some startKey) (some startKey) false true
  else AttachOutcome.errOut OLAPStatus.readerGetIteratorError

/-- One iteration of `_attach_data_to_merge_set`'s range loop: with start
keys present, a used-up `_next_key_index` is EOF; otherwise the end key is
resolved — `end_keys[cur_key_index]` is read unchecked whenever `end_keys`
is non-empty — the `end_range` token is validated, and the `range` dispatch
runs.  Without start keys, only the first iteration proceeds (full scan);
later ones are EOF. -/
def attachResolveRange (first : Bool) (kp : KeysParam) (idx : Nat) :
    AttachOutcome :=
  if kp.start_keys.length > 0 then
    if idx ≥ kp.start_keys.length then AttachOutcome.eofOut
    else
      if kp.end_keys.length ≠ 0 then
        if idx ≥ kp.end_keys.length then AttachOutcome.oobAccess
        else
          if kp.end_range = "lt" then
            attachRangeDispatch kp (kp.start_keys.getD idx [])
              (some (kp.end_keys.getD idx [])) false
          else if kp.end_range = "le" then
            attachRangeDispatch kp (kp.start_keys.getD idx [])
              (some (kp.end_keys.getD idx [])) true
          else AttachOutcome.errOut OLAPStatus.readerGetIteratorError
      else attachRangeDispatch kp (kp.start_keys.getD idx []) none false
  else if first = false then AttachOutcome.eofOut
  else AttachOutcome.scan none none false false

/-!
`Reader::_init_load_bf_columns` (reader.cpp:1087-1148).
-/

/-- Condition operators distinguished by bloom-filter column selection
(`Cond::op`). -/
inductive CondOp
  | opEq
  | opIn
  | opOther
  deriving DecidableEq, Repr

/-- Input of `_init_load_bf_columns`: the pushed conditions per column id
(each with operator and operand-set size), the schema, the scan keys
(`start_key` / `end_key`, each tuple a list of values), the tablet's
short-key field count and `MAX_OP_IN_FIELD_NUM`. -/
structure BfInput where
  condColumns : List (Nat × List (CondOp × Nat))
  schema : List FieldInfo
  startKey : List (List Nat)
  endKey : List (List Nat)
  numShortKeyFields : Nat
  maxOpInFieldNum : Nat
  deriving DecidableEq, Repr

/-- Modelled from the spec: the Tablet collaborator's
`get_field_type_by_index(i) → FieldType` (§6 EXTERNAL INTERFACES);
`OLAPTable`'s implementation is not among the sources.  An in-range index
returns the schema column's type; the spec leaves the out-of-range result
unspecified, which the parameter `oob` stands for. -/
def getFieldTypeByIndex (schema : List FieldInfo) (oob : FieldType)
    (i : Int) : FieldType :=
  if 0 ≤ i ∧ i.toNat < schema.length then (schema.getD i.toNat default).ftype
  else oob

/-- The implicit `uint32_t` conversion when `std::set<uint32_t>::erase` is
called with an `int` argument. -/
def toUInt32Nat (i : Int) : Nat := (i % 4294967296).toNat

/-- Step 1 (reader.cpp:1090-1098): every column with an `OP_EQ` condition or
an `OP_IN` condition with fewer than `MAX_OP_IN_FIELD_NUM` operands. -/
def bfCondSet (condColumns : List (Nat × List (CondOp × Nat)))
    (maxIn : Nat) : Finset Nat :=
  condColumns.foldl
    (fun s cc =>
      if cc.2.any (fun c =>
          decide (c.1 = CondOp.opEq) ||
            (decide (c.1 = CondOp.opIn) && decide (c.2 < maxIn)))
      then insert cc.1 s else s) ∅

/-- Step 2 (reader.cpp:1100-1105): erase every schema column that carries no
bloom filter. -/
def bfAfterSchemaFilter (inp : BfInput) : Finset Nat :=
  (List.range inp.schema.length).foldl
    (fun s i =>
      if (inp.schema.getD i default).is_bf_column then s else s.erase i)
    (bfCondSet inp.condColumns inp.maxOpInFieldNum)

/-- Step 3a (reader.cpp:1107-1119): `min_scan_key_len`, initialized to the
schema size and lowered to the shortest scan-key tuple. -/
def minScanKeyLen (inp : BfInput) : Nat :=
  ((inp.startKey ++ inp.endKey).map List.length).foldl min inp.schema.length

/-- The inner `j` loop (reader.cpp:1123-1128): the length of the common
prefix of one start/end key pair, capped by `min_scan_key_len` (the fuel). -/
def eqPrefLen : List Nat → List Nat → Nat → Nat
  | _, _, 0 => 0
  | x :: xs, y :: ys, n + 1 => if x = y then eqPrefLen xs ys n + 1 else 0
  | _, _, _ + 1 => 0

/-- Step 3b (reader.cpp:1121-1133): `max_equal_index`, starting at `-1` and
raised to `j - 1` for every scan-key pair. -/
def maxEqualIndex (inp : BfInput) : Int :=
  (List.range inp.startKey.length).foldl
    (fun m i =>
      max m ((eqPrefLen (inp.startKey.getD i []) (inp.endKey.getD i [])
        (minScanKeyLen inp) : Int) - 1))
    (-1)

/-- Step 4 (reader.cpp:1135-1137): erase every index below
`max_equal_index`. -/
def bfBeforeMaxErase (inp : BfInput) : Finset Nat :=
  (List.range (maxEqualIndex inp).toNat).foldl (fun s i => s.erase i)
    (bfAfterSchemaFilter inp)

/-- Step 5's condition (reader.cpp:1139-1145): erase `max_equal_index`
itself when its type is neither VARCHAR nor HLL, or when
`max_equal_index + 1 > num_short_key_fields`. -/
def bfMaxEraseCond (inp : BfInput) (oob : FieldType) : Prop :=
  (getFieldTypeByIndex inp.schema oob (maxEqualIndex inp) ≠ FieldType.varchar ∧
    getFieldTypeByIndex inp.schema oob (maxEqualIndex inp) ≠ FieldType.hll) ∨
  maxEqualIndex inp + 1 > (inp.numShortKeyFields : Int)

instance (inp : BfInput) (oob : FieldType) : Decidable (bfMaxEraseCond inp oob) := by
  unfold bfMaxEraseCond; infer_instance

/-- Result of `_init_load_bf_columns`: the final set, `max_equal_index`, and
the argument passed to `get_field_type_by_index` (always
`max_equal_index`). -/
structure BfOut where
  loadBfColumns : Finset Nat
  maxEqualIndex : Int
  fieldTypeArg : Int
  deriving DecidableEq

/-- `Reader::_init_load_bf_columns`, steps 1-5 in source order. -/
def initLoadBfColumns (inp : BfInput) (oob : FieldType) : BfOut :=
  ⟨if bfMaxEraseCond inp oob then
      (bfBeforeMaxErase inp).erase (toUInt32Nat (maxEqualIndex inp))
    else bfBeforeMaxErase inp,
   maxEqualIndex inp, maxEqualIndex inp⟩

/-- Concrete `_init_load_bf_columns` input: three eq-condition bloom-filter
columns, one scan-key pair `[7,8]..[7,9]` (so `max_equal_index = 0`). -/
def bfSampleInput : BfInput :=
  ⟨[(0, [(CondOp.opEq, 1)]), (1, [(CondOp.opEq, 1)]), (2, [(CondOp.opEq, 1)])],
   [⟨true, true, FieldType.bigint⟩, ⟨true, true, FieldType.bigint⟩,
    ⟨false, true, FieldType.bigint⟩],
   [[7, 8]], [[7, 9]], 2, 100⟩

theorem keyCmp_eq_zero_iff : ∀ a b : List Int, keyCmp a b = 0 ↔ a = b := by
  intro a
  induction a with
  | nil =>
    intro b
    cases b with
    | nil => simp [keyCmp]
    | cons y ys => simp [keyCmp]
  | cons x xs ih =>
    intro b
    cases b with
    | nil => simp [keyCmp]
    | cons y ys =>
      simp only [keyCmp, List.cons.injEq]
      rcases lt_trichotomy x y with h | h | h
      · rw [if_pos h]
        constructor
        · intro hc; exact absurd hc (by norm_num)
        · rintro ⟨h1, -⟩; omega
      · subst h
        rw [if_neg (lt_irrefl x), if_neg (lt_irrefl x), ih ys]
        simp
      · rw [if_neg (by omega), if_pos h]
        constructor
        · intro hc; exact absurd hc (by norm_num)
        · rintro ⟨h1, -⟩; omega

theorem keyCmp_self (a : List Int) : keyCmp a a = 0 :=
  (keyCmp_eq_zero_iff a a).mpr rfl

theorem keyCmp_swap : ∀ a b : List Int, keyCmp b a = -keyCmp a b := by
  intro a
  induction a with
  | nil =>
    intro b
    cases b with
    | nil => simp [keyCmp]
    | cons y ys => simp [keyCmp]
  | cons x xs ih =>
    intro b
    cases b with
    | nil => simp [keyCmp]
    | cons y ys =>
      simp only [keyCmp]
      rcases lt_trichotomy x y with h | h | h
      · rw [if_neg (by omega : ¬ y < x), if_pos h, if_pos h]
        norm_num
      · subst h
        rw [if_neg (lt_irrefl x), if_neg (lt_irrefl x), if_neg (lt_irrefl x),
          if_neg (lt_irrefl x)]
        exact ih ys
      · rw [if_pos h, if_neg (by omega : ¬ x < y), if_pos h]

/-- Inversion of the cons case of `keyCmp` for strict comparison. -/
theorem keyCmp_lt_cons {x y : Int} {xs ys : List Int} :
    keyCmp (x :: xs) (y :: ys) < 0 ↔ x < y ∨ (x = y ∧ keyCmp xs ys < 0) := by
  simp only [keyCmp]
  rcases lt_trichotomy x y with h | h | h
  · rw [if_pos h]
    constructor
    · intro _; exact Or.inl h
    · intro _; norm_num
  · subst h
    rw [if_neg (lt_irrefl x), if_neg (lt_irrefl x)]
    constructor
    · intro hc; exact Or.inr ⟨rfl, hc⟩
    · rintro (hc | ⟨-, hc⟩)
      · omega
      · exact hc
  · rw [if_neg (by omega), if_pos h]
    constructor
    · intro hc; norm_num at hc
    · rintro (hc | ⟨hc, -⟩) <;> omega

theorem keyCmp_trans_lt : ∀ a b c : List Int,
    keyCmp a b < 0 → keyCmp b c < 0 → keyCmp a c < 0 := by
  intro a
  induction a with
  | nil =>
    intro b c hab hbc
    cases b with
    | nil => simp [keyCmp] at hab
    | cons y ys =>
      cases c with
      | nil => simp only [keyCmp] at hbc; omega
      | cons z zs => simp [keyCmp]
  | cons x xs ih =>
    intro b c hab hbc
    cases b with
    | nil => simp only [keyCmp] at hab; omega
    | cons y ys =>
      cases c with
      | nil => simp only [keyCmp] at hbc; omega
      | cons z zs =>
        rw [keyCmp_lt_cons] at hab hbc ⊢
        rcases hab with h1 | ⟨h1, h1'⟩ <;> rcases hbc with h2 | ⟨h2, h2'⟩
        · exact Or.inl (by omega)
        · exact Or.inl (by omega)
        · exact Or.inl (by omega)
        · exact Or.inr ⟨by omega, ih ys zs h1' h2'⟩

theorem keyCmp_trans_le : ∀ a b c : List Int,
    keyCmp a b ≤ 0 → keyCmp b c ≤ 0 → keyCmp a c ≤ 0 := by
  intro a b c hab hbc
  rcases lt_or_eq_of_le hab with h | h
  · rcases lt_or_eq_of_le hbc with h' | h'
    · exact le_of_lt (keyCmp_trans_lt a b c h h')
    · have : b = c := (keyCmp_eq_zero_iff b c).mp h'
      subst this; exact le_of_lt h
  · have : a = b := (keyCmp_eq_zero_iff a b).mp h
    subst this; exact hbc

theorem keyCmp_lt_of_le_of_lt {a b c : List Int}
    (hab : keyCmp a b ≤ 0) (hbc : keyCmp b c < 0) : keyCmp a c < 0 := by
  rcases lt_or_eq_of_le hab with h | h
  · exact keyCmp_trans_lt a b c h hbc
  · have : a = b := (keyCmp_eq_zero_iff a b).mp h
    subst this; exact hbc

theorem keyCmp_lt_of_lt_of_le {a b c : List Int}
    (hab : keyCmp a b < 0) (hbc : keyCmp b c ≤ 0) : keyCmp a c < 0 := by
  rcases lt_or_eq_of_le hbc with h | h
  · exact keyCmp_trans_lt a b c hab h
  · have : b = c := (keyCmp_eq_zero_iff b c).mp h
    subst this; exact hab

/-- Explicit characterization of `rowLE`: lexicographic `(key asc, version asc)`. -/
theorem rowLE_iff (a b : URow) :
    rowLE a b ↔ keyCmp a.key b.key < 0 ∨
      (keyCmp a.key b.key = 0 ∧ a.version ≤ b.version) := by
  unfold rowLE childCtxLess
  rcases lt_trichotomy (keyCmp a.key b.key) 0 with h | h | h
  · rw [if_pos (by omega : keyCmp a.key b.key ≠ 0)]
    simp only [gt_iff_lt, decide_eq_false_iff_not, not_lt]
    constructor
    · intro _; exact Or.inl h
    · intro _; exact le_of_lt h
  · rw [if_neg (by omega : ¬ keyCmp a.key b.key ≠ 0)]
    simp only [gt_iff_lt, decide_eq_false_iff_not, not_lt]
    constructor
    · intro hv; exact Or.inr ⟨h, hv⟩
    · rintro (hlt | ⟨-, hv⟩)
      · omega
      · exact hv
  · rw [if_pos (by omega : keyCmp a.key b.key ≠ 0)]
    simp only [gt_iff_lt, decide_eq_false_iff_not, not_lt]
    constructor
    · intro hc; omega
    · rintro (hlt | ⟨hz, -⟩) <;> omega

/-- Characterization of the strict comparator. -/
theorem childCtxLess_eq_true_iff (a b : URow) :
    childCtxLess a b = true ↔ 0 < keyCmp a.key b.key ∨
      (keyCmp a.key b.key = 0 ∧ b.version < a.version) := by
  have h := rowLE_iff a b
  unfold rowLE at h
  constructor
  · intro ht
    by_contra hc
    push_neg at hc
    have : childCtxLess a b = false := by
      rw [h]
      rcases lt_trichotomy (keyCmp a.key b.key) 0 with h' | h' | h'
      · exact Or.inl h'
      · exact Or.inr ⟨h', by omega⟩
      · exact absurd h' (by omega)
    rw [this] at ht; cases ht
  · intro hc
    by_contra ht
    have hf : childCtxLess a b = false := by
      cases hb : childCtxLess a b
      · rfl
      · exact absurd hb ht
    rw [h] at hf
    rcases hf with h' | ⟨h', hv⟩ <;> rcases hc with h'' | ⟨h'', hv'⟩ <;> omega

theorem rowLE_refl (a : URow) : rowLE a a := by
  rw [rowLE_iff]; right; exact ⟨keyCmp_self a.key, le_refl _⟩

theorem rowLE_trans {a b c : URow} (hab : rowLE a b) (hbc : rowLE b c) :
    rowLE a c := by
  rw [rowLE_iff] at hab hbc ⊢
  rcases hab with h1 | ⟨h1, hv1⟩ <;> rcases hbc with h2 | ⟨h2, hv2⟩
  · exact Or.inl (keyCmp_trans_lt _ _ _ h1 h2)
  · exact Or.inl (keyCmp_lt_of_lt_of_le h1 (le_of_eq h2))
  · exact Or.inl (keyCmp_lt_of_le_of_lt (le_of_eq h1) h2)
  · right
    have hb : a.key = b.key := (keyCmp_eq_zero_iff _ _).mp h1
    have hc : b.key = c.key := (keyCmp_eq_zero_iff _ _).mp h2
    rw [hb, hc]
    exact ⟨keyCmp_self _, le_trans hv1 hv2⟩

/-- Heap-comparator asymmetry: if `a` is strictly less than `b` in the
comparator order then `b ≤ a` in the pop order. -/
theorem rowLE_of_childCtxLess {a b : URow} (h : childCtxLess a b = true) :
    rowLE b a := by
  rw [childCtxLess_eq_true_iff] at h
  rw [rowLE_iff, keyCmp_swap a.key b.key]
  rcases h with h | ⟨h, hv⟩
  · exact Or.inl (by omega)
  · exact Or.inr ⟨by omega, le_of_lt hv⟩

theorem rowLE_total (a b : URow) : rowLE a b ∨ rowLE b a := by
  cases h : childCtxLess a b
  · exact Or.inl h
  · exact Or.inr (rowLE_of_childCtxLess h)

theorem heapTop_none {cs : List (List URow)} (h : heapTop cs = none) :
    ∀ c ∈ cs, c = [] := by
  induction cs with
  | nil => intro c hc; cases hc
  | cons c0 cs ih =>
    cases c0 with
    | nil =>
      simp only [heapTop] at h
      intro c hc
      rcases List.mem_cons.mp hc with rfl | hm
      · rfl
      · exact ih h c hm
    | cons r rs =>
      exfalso
      cases h' : heapTop cs with
      | none =>
        simp only [heapTop, h'] at h
        exact Option.noConfusion h
      | some p =>
        cases p with
        | mk r1 cs1 =>
          simp only [heapTop, h'] at h
          by_cases hless : childCtxLess r r1 = true
          · rw [if_pos hless] at h; cases h
          · rw [if_neg hless] at h; cases h

theorem totalLen_eq_zero_of_all_nil {cs : List (List URow)}
    (h : ∀ c ∈ cs, c = []) : totalLen cs = 0 := by
  simp only [totalLen]
  refine List.sum_eq_zero ?_
  intro x hx
  obtain ⟨c, hc, rfl⟩ := List.mem_map.mp hx
  simp [h c hc]

theorem heapTop_totalLen {cs : List (List URow)} {r : URow}
    {cs' : List (List URow)} (h : heapTop cs = some (r, cs')) :
    totalLen cs' + 1 = totalLen cs := by
  induction cs generalizing r cs' with
  | nil => cases h
  | cons c0 cs ih =>
    cases c0 with
    | nil =>
      simp only [heapTop] at h
      have := ih h
      simp only [totalLen, List.map_cons, List.sum_cons, List.length_nil] at this ⊢
      omega
    | cons r0 rs =>
      cases h' : heapTop cs with
      | none =>
        simp only [heapTop, h', Option.some.injEq, Prod.mk.injEq] at h
        obtain ⟨h1, h2⟩ := h
        subst h1; subst h2
        have hz : totalLen cs = 0 := totalLen_eq_zero_of_all_nil (heapTop_none h')
        simp only [totalLen, List.map_cons, List.sum_cons, List.length_cons,
          List.map_nil, List.sum_nil] at hz ⊢
        omega
      | some p =>
        cases p with
        | mk r1 cs1 =>
          simp only [heapTop, h'] at h
          have hrec := ih h'
          by_cases hless : childCtxLess r0 r1 = true
          · rw [if_pos hless] at h
            simp only [Option.some.injEq, Prod.mk.injEq] at h
            obtain ⟨h1, h2⟩ := h
            subst h1; subst h2
            simp only [totalLen, List.map_cons, List.sum_cons] at hrec ⊢
            omega
          · rw [if_neg hless] at h
            simp only [Option.some.injEq, Prod.mk.injEq] at h
            obtain ⟨h1, h2⟩ := h
            subst h1; subst h2
            simp only [totalLen, List.map_cons, List.sum_cons, List.length_cons] at hrec ⊢
            omega

theorem heapTop_mem {cs : List (List URow)} {r : URow}
    {cs' : List (List URow)} (h : heapTop cs = some (r, cs')) :
    ∃ c ∈ cs, c.head? = some r := by
  induction cs generalizing r cs' with
  | nil => cases h
  | cons c0 cs ih =>
    cases c0 with
    | nil =>
      simp only [heapTop] at h
      obtain ⟨c, hc, hh⟩ := ih h
      exact ⟨c, List.mem_cons_of_mem _ hc, hh⟩
    | cons r0 rs =>
      cases h' : heapTop cs with
      | none =>
        simp only [heapTop, h', Option.some.injEq, Prod.mk.injEq] at h
        obtain ⟨h1, h2⟩ := h
        subst h1
        exact ⟨r0 :: rs, List.mem_cons_self _ _, rfl⟩
      | some p =>
        cases p with
        | mk r1 cs1 =>
          simp only [heapTop, h'] at h
          by_cases hless : childCtxLess r0 r1 = true
          · rw [if_pos hless] at h
            simp only [Option.some.injEq, Prod.mk.injEq] at h
            obtain ⟨h1, h2⟩ := h
            subst h1
            obtain ⟨c, hc, hh⟩ := ih h'
            exact ⟨c, List.mem_cons_of_mem _ hc, hh⟩
          · rw [if_neg hless] at h
            simp only [Option.some.injEq, Prod.mk.injEq] at h
            obtain ⟨h1, h2⟩ := h
            subst h1
            exact ⟨r0 :: rs, List.mem_cons_self _ _, rfl⟩

/-- The heap top is `rowLE` every child's current row. -/
theorem heapTop_le_heads {cs : List (List URow)} {r : URow}
    {cs' : List (List URow)} (h : heapTop cs = some (r, cs')) :
    ∀ c ∈ cs, ∀ x, c.head? = some x → rowLE r x := by
  induction cs generalizing r cs' with
  | nil => cases h
  | cons c0 cs ih =>
    cases c0 with
    | nil =>
      simp only [heapTop] at h
      intro c hc x hx
      rcases List.mem_cons.mp hc with rfl | hm
      · cases hx
      · exact ih h c hm x hx
    | cons r0 rs =>
      cases h' : heapTop cs with
      | none =>
        simp only [heapTop, h', Option.some.injEq, Prod.mk.injEq] at h
        obtain ⟨h1, h2⟩ := h
        subst h1
        intro c hc x hx
        rcases List.mem_cons.mp hc with rfl | hm
        · injection hx with hx; subst hx; exact rowLE_refl _
        · have := heapTop_none h' c hm
          subst this; cases hx
      | some p =>
        cases p with
        | mk r1 cs1 =>
          simp only [heapTop, h'] at h
          by_cases hless : childCtxLess r0 r1 = true
          · rw [if_pos hless] at h
            simp only [Option.some.injEq, Prod.mk.injEq] at h
            obtain ⟨h1, h2⟩ := h
            subst h1
            intro c hc x hx
            rcases List.mem_cons.mp hc with rfl | hm
            · injection hx with hx; subst hx
              exact rowLE_of_childCtxLess hless
            · exact ih h' c hm x hx
          · rw [if_neg hless] at h
            simp only [Option.some.injEq, Prod.mk.injEq] at h
            obtain ⟨h1, h2⟩ := h
            subst h1
            intro c hc x hx
            rcases List.mem_cons.mp hc with rfl | hm
            · injection hx with hx; subst hx; exact rowLE_refl _
            · have h01 : rowLE r0 r1 := Bool.of_not_eq_true hless
              exact rowLE_trans h01 (ih h' c hm x hx)

/-- Advancing past the heap top preserves per-child sortedness, and every
remaining current row is `rowLE`-above the popped row. -/
theorem heapTop_next {cs : List (List URow)} {r : URow}
    {cs' : List (List URow)} (hs : ∀ c ∈ cs, c.Pairwise rowLE)
    (h : heapTop cs = some (r, cs')) :
    (∀ c ∈ cs', c.Pairwise rowLE) ∧
      (∀ c ∈ cs', ∀ x, c.head? = some x → rowLE r x) := by
  induction cs generalizing r cs' with
  | nil => cases h
  | cons c0 cs ih =>
    cases c0 with
    | nil =>
      simp only [heapTop] at h
      exact ih (fun c hc => hs c (List.mem_cons_of_mem _ hc)) h
    | cons r0 rs =>
      have hs0 : (r0 :: rs).Pairwise rowLE := hs _ (List.mem_cons_self _ _)
      cases h' : heapTop cs with
      | none =>
        simp only [heapTop, h', Option.some.injEq, Prod.mk.injEq] at h
        obtain ⟨h1, h2⟩ := h
        subst h1; subst h2
        constructor
        · intro c hc
          rcases List.mem_cons.mp hc with rfl | hm
          · exact hs0.of_cons
          · cases hm
        · intro c hc x hx
          rcases List.mem_cons.mp hc with rfl | hm
          · exact (List.pairwise_cons.mp hs0).1 x
              (by cases c <;> simp_all)
          · cases hm
      | some p =>
        cases p with
        | mk r1 cs1 =>
          simp only [heapTop, h'] at h
          have ihr := ih (fun c hc => hs c (List.mem_cons_of_mem _ hc)) h'
          by_cases hless : childCtxLess r0 r1 = true
          · rw [if_pos hless] at h
            simp only [Option.some.injEq, Prod.mk.injEq] at h
            obtain ⟨h1, h2⟩ := h
            subst h1; subst h2
            constructor
            · intro c hc
              rcases List.mem_cons.mp hc with rfl | hm
              · exact hs0
              · exact ihr.1 c hm
            · intro c hc x hx
              rcases List.mem_cons.mp hc with rfl | hm
              · injection hx with hx; subst hx
                exact rowLE_of_childCtxLess hless
              · exact ihr.2 c hm x hx
          · rw [if_neg hless] at h
            simp only [Option.some.injEq, Prod.mk.injEq] at h
            obtain ⟨h1, h2⟩ := h
            subst h1; subst h2
            constructor
            · intro c hc
              rcases List.mem_cons.mp hc with rfl | hm
              · exact hs0.of_cons
              · exact hs c (List.mem_cons_of_mem _ hm)
            · intro c hc x hx
              rcases List.mem_cons.mp hc with rfl | hm
              · exact (List.pairwise_cons.mp hs0).1 x
                  (by cases c <;> simp_all)
              · have h01 : rowLE r0 r1 := Bool.of_not_eq_true hless
                exact rowLE_trans h01 (heapTop_le_heads h' c hm x hx)

theorem mergeRows_lower_bound :
    ∀ (n : Nat) (cs : List (List URow)) (b : URow),
      (∀ c ∈ cs, c.Pairwise rowLE) →
      (∀ c ∈ cs, ∀ x, c.head? = some x → rowLE b x) →
      ∀ x ∈ mergeRows n cs, rowLE b x := by
  intro n
  induction n with
  | zero => intro cs b _ _ x hx; cases hx
  | succ n ih =>
    intro cs b hs hb x hx
    simp only [mergeRows] at hx
    cases h : heapTop cs <;> rw [h] at hx
    · cases hx
    · rename_i p
      cases p with
      | mk r cs' =>
        rcases List.mem_cons.mp hx with rfl | hm
        · obtain ⟨c, hc, hh⟩ := heapTop_mem h
          exact hb c hc x hh
        · have hn := heapTop_next hs h
          have hbr : rowLE b r := by
            obtain ⟨c, hc, hh⟩ := heapTop_mem h
            exact hb c hc r hh
          exact ih cs' b hn.1
            (fun c hc y hy => rowLE_trans hbr (hn.2 c hc y hy)) x hm

/-- Merge-mode output is sorted by `(full key asc, version asc)` whenever each
child (segment cursor) delivers its rows sorted in that order. -/
theorem mergeRows_sorted :
    ∀ (n : Nat) (cs : List (List URow)),
      (∀ c ∈ cs, c.Pairwise rowLE) → (mergeRows n cs).Pairwise rowLE := by
  intro n
  induction n with
  | zero => intro cs _; exact List.Pairwise.nil
  | succ n ih =>
    intro cs hs
    simp only [mergeRows]
    cases h : heapTop cs
    · exact List.Pairwise.nil
    · rename_i p
      cases p with
      | mk r cs' =>
        have hn := heapTop_next hs h
        exact List.pairwise_cons.mpr
          ⟨mergeRows_lower_bound n cs' r hn.1 hn.2, ih cs' hn.1⟩

theorem mergeStream_sorted (cs : List (List URow))
    (hs : ∀ c ∈ cs, c.Pairwise rowLE) : (mergeStream cs).Pairwise rowLE :=
  mergeRows_sorted _ cs hs

/-- The merge emits every row: nothing is truncated. -/
theorem mergeStream_length (cs : List (List URow)) :
    (mergeStream cs).length = totalLen cs := by
  suffices h : ∀ (n : Nat) (cs : List (List URow)), n = totalLen cs →
      (mergeRows n cs).length = totalLen cs from h _ cs rfl
  intro n
  induction n with
  | zero =>
    intro cs h
    simp [mergeRows, ← h]
  | succ n ih =>
    intro cs h
    simp only [mergeRows]
    cases h' : heapTop cs
    · exfalso
      have : ∀ c ∈ cs, c = [] := heapTop_none h'
      have : totalLen cs = 0 := by
        simp only [totalLen]
        rw [List.sum_eq_zero]
        intro x hx
        obtain ⟨c, hc, rfl⟩ := List.mem_map.mp hx
        rw [this c hc]; rfl
      omega
    · rename_i p
      cases p with
      | mk r cs' =>
        have := heapTop_totalLen h'
        simp only [List.length_cons]
        rw [ih cs' (by omega)]
        omega

theorem aggConsume_length (agg : Bool) (limit : Nat) (k : List Int) :
    ∀ (cnt : Nat) (l : List URow),
      (aggConsume agg limit k cnt l).2.length ≤ l.length := by
  intro cnt l
  induction l generalizing cnt with
  | nil => simp [aggConsume]
  | cons s rest ih =>
    simp only [aggConsume]
    split
    · simp
    · split
      · exact le_trans (ih (cnt + 1)) (by simp)
      · simp

theorem aggNextRow_some_length {agg : Bool} {limit : Nat} {stream : List URow}
    {k : List Int} {rest : List URow}
    (h : aggNextRow agg limit stream = (some k, rest)) :
    rest.length < stream.length := by
  cases stream with
  | nil => simp [aggNextRow] at h
  | cons r rest0 =>
    simp only [aggNextRow, Prod.mk.injEq] at h
    obtain ⟨-, h2⟩ := h
    subst h2
    exact lt_of_le_of_lt (aggConsume_length _ _ _ _ _) (by simp)

theorem uniqueConsume_length (kt : KeysType) (agg : Bool) (limit : Nat)
    (k : List Int) : ∀ (flag : Bool) (cnt : Nat) (l : List URow),
      (uniqueConsume kt agg limit k flag cnt l).2.2.length ≤ l.length := by
  intro flag cnt l
  induction l generalizing flag cnt with
  | nil => simp [uniqueConsume]
  | cons s rest ih =>
    simp only [uniqueConsume]
    split
    · simp
    · split
      · exact le_trans (ih _ (cnt + 1)) (by simp)
      · simp

/-- `aggScan` is the iteration of `aggNextRow` until EOF. -/
theorem aggScan_eq_nextRow (agg : Bool) (limit : Nat) (stream : List URow) :
    aggScan agg limit stream =
      (match aggNextRow agg limit stream with
       | (none, _) => []
       | (some k, rest) => k :: aggScan agg limit rest) := by
  cases stream with
  | nil => simp [aggScan, aggNextRow]
  | cons r rest => simp [aggScan, aggNextRow]

/-- `uniqueScan` is the iteration of `uniqueNextRow` until EOF. -/
theorem uniqueScan_eq_nextRow (kt : KeysType) (agg : Bool) (limit : Nat) :
    ∀ stream : List URow,
      uniqueScan kt agg limit stream =
        (match uniqueNextRow kt agg limit stream with
         | (none, _, d) => ([], d)
         | (some k, rest, d) =>
             (k :: (uniqueScan kt agg limit rest).1,
              d + (uniqueScan kt agg limit rest).2)) := by
  intro stream
  induction stream using uniqueNextRow.induct kt agg limit with
  | case1 => simp only [uniqueScan, uniqueNextRow]
  | case2 r rest t ht ih =>
    have htt : t = uniqueConsume kt agg limit r.key r.del 0 rest := rfl
    rw [htt] at ht ih
    rw [uniqueScan, uniqueNextRow]
    rw [if_pos ht, if_pos ht]
    cases hu : uniqueNextRow kt agg limit
        (uniqueConsume kt agg limit r.key r.del 0 rest).2.2 with
    | mk o p =>
      cases p with
      | mk rr dd =>
        rw [hu] at ih
        cases o with
        | none => simp [ih]
        | some k =>
          simp [ih]
          omega
  | case3 r rest t ht =>
    have htt : t = uniqueConsume kt agg limit r.key r.del 0 rest := rfl
    rw [htt] at ht
    rw [uniqueScan, uniqueNextRow]
    rw [if_neg ht, if_neg ht]
    simp

/-!
Characterizations of the consume loops when the throughput cap is inactive
(`aggregation = false`), and the key-group structure of a sorted stream.
-/

theorem aggConsume_char (limit : Nat) (k : List Int) :
    ∀ (l : List URow) (cnt : Nat),
      aggConsume false limit k cnt l =
        (cnt + (l.takeWhile (fun s => decide (s.key = k))).length,
         l.dropWhile (fun s => decide (s.key = k))) := by
  intro l
  induction l with
  | nil => intro cnt; simp [aggConsume]
  | cons s rest ih =>
    intro cnt
    simp only [aggConsume]
    rw [if_neg (by simp : ¬((false : Bool) = true ∧ limit < cnt))]
    by_cases hk : s.key = k
    · rw [if_pos hk, ih (cnt + 1)]
      simp [hk, List.takeWhile_cons, List.dropWhile_cons]
      omega
    · rw [if_neg hk]
      simp [hk, List.takeWhile_cons, List.dropWhile_cons]

theorem uniqueConsume_char (limit : Nat) (k : List Int) :
    ∀ (l : List URow) (flag : Bool) (cnt : Nat),
      uniqueConsume KeysType.uniqueKeys false limit k flag cnt l =
        ((l.takeWhile (fun s => decide (s.key = k))).foldl
            (fun _ s => s.del) flag,
         cnt + (l.takeWhile (fun s => decide (s.key = k))).length,
         l.dropWhile (fun s => decide (s.key = k))) := by
  intro l
  induction l with
  | nil => intro flag cnt; simp [uniqueConsume]
  | cons s rest ih =>
    intro flag cnt
    simp only [uniqueConsume]
    rw [if_neg (by simp : ¬(KeysType.uniqueKeys = KeysType.dupKeys ∨
      ((false : Bool) = true ∧ limit < cnt)))]
    by_cases hk : s.key = k
    · rw [if_pos hk, ih s.del (cnt + 1)]
      simp [hk, List.takeWhile_cons, List.dropWhile_cons]
      omega
    · rw [if_neg hk]
      simp [hk, List.takeWhile_cons, List.dropWhile_cons]

theorem head?_dropWhile_not (p : URow → Bool) :
    ∀ (l : List URow) (x : URow), (l.dropWhile p).head? = some x →
      p x = false := by
  intro l
  induction l with
  | nil => intro x hx; simp [List.dropWhile] at hx
  | cons a l ih =>
    intro x hx
    rw [List.dropWhile_cons] at hx
    by_cases hp : p a = true
    · rw [if_pos hp] at hx; exact ih x hx
    · rw [if_neg hp] at hx
      injection hx with hx; subst hx
      exact Bool.of_not_eq_true hp

/-- `aggScan` with the cap inactive emits exactly one key per key group. -/
theorem aggScan_groups (limit : Nat) :
    ∀ stream : List URow,
      aggScan false limit stream = (groupRuns stream).map groupKey := by
  intro stream
  induction stream using groupRuns.induct with
  | case1 => simp [aggScan, groupRuns]
  | case2 r rest ih =>
    rw [aggScan, groupRuns, aggConsume_char]
    simp only [List.map_cons]
    rw [ih]
    simp [groupKey]

/-- `uniqueScan` with the cap inactive: groups whose final delete flag is
clear are emitted, the flagged ones are counted into `rows_del_filtered`. -/
theorem uniqueScan_groups (limit : Nat) :
    ∀ stream : List URow,
      uniqueScan KeysType.uniqueKeys false limit stream =
        (((groupRuns stream).filter (fun g => !groupDelFlag g)).map groupKey,
         ((groupRuns stream).filter (fun g => groupDelFlag g)).length) := by
  intro stream
  induction stream using groupRuns.induct with
  | case1 => simp [uniqueScan, groupRuns]
  | case2 r rest ih =>
    rw [uniqueScan, groupRuns, uniqueConsume_char]
    have hflag : groupDelFlag
        (r :: rest.takeWhile (fun s => decide (s.key = r.key))) =
        (rest.takeWhile (fun s => decide (s.key = r.key))).foldl
          (fun _ s => s.del) r.del := by
      simp [groupDelFlag]
    simp only [List.filter_cons]
    by_cases hf : (rest.takeWhile (fun s => decide (s.key = r.key))).foldl
        (fun _ s => s.del) r.del = true
    · rw [if_pos hf, ih]
      rw [if_neg (by simp [hflag, hf]), if_pos (by simp [hflag, hf])]
      simp
    · rw [if_neg hf, ih]
      rw [if_pos (by simp [hflag, Bool.of_not_eq_true hf]),
        if_neg (by simp [hflag, Bool.of_not_eq_true hf])]
      simp [groupKey]

theorem groupRuns_mem_stream :
    ∀ (stream : List URow) (g : List URow), g ∈ groupRuns stream →
      ∃ x ∈ stream, groupKey g = x.key := by
  intro stream
  induction stream using groupRuns.induct with
  | case1 => intro g hg; simp [groupRuns] at hg
  | case2 r rest ih =>
    intro g hg
    rw [groupRuns] at hg
    rcases List.mem_cons.mp hg with rfl | hm
    · exact ⟨r, List.mem_cons_self _ _, by simp [groupKey]⟩
    · obtain ⟨x, hx, hk⟩ := ih g hm
      exact ⟨x, List.mem_cons_of_mem _
        (List.Sublist.mem hx (List.dropWhile_sublist _)), hk⟩

/-- In a sorted stream, every row left after dropping the head's key run has
a strictly greater key. -/
theorem dropWhile_key_gt {r : URow} {rest : List URow}
    (hs : (r :: rest).Pairwise rowLE) :
    ∀ x ∈ rest.dropWhile (fun s => decide (s.key = r.key)),
      keyCmp r.key x.key < 0 := by
  intro x hx
  cases hdw : rest.dropWhile (fun s => decide (s.key = r.key)) with
  | nil => rw [hdw] at hx; cases hx
  | cons h' tail' =>
    rw [hdw] at hx
    have hph : decide (h'.key = r.key) = false :=
      head?_dropWhile_not _ rest h' (by rw [hdw]; rfl)
    have hne : h'.key ≠ r.key := by simpa using hph
    have hmem : h' ∈ rest :=
      List.Sublist.mem (by rw [hdw]; exact List.mem_cons_self _ _)
        (List.dropWhile_sublist _)
    have hrh : rowLE r h' := (List.pairwise_cons.mp hs).1 h' hmem
    have hlt : keyCmp r.key h'.key < 0 := by
      rw [rowLE_iff] at hrh
      rcases hrh with h | ⟨hz, -⟩
      · exact h
      · exact absurd ((keyCmp_eq_zero_iff _ _).mp hz).symm hne
    rcases List.mem_cons.mp hx with rfl | hm
    · exact hlt
    · have hsdw : (h' :: tail').Pairwise rowLE :=
        List.Pairwise.sublist (hdw ▸ List.dropWhile_sublist _) hs.of_cons
      have hh'x : rowLE h' x := (List.pairwise_cons.mp hsdw).1 x hm
      have hle : keyCmp h'.key x.key ≤ 0 := by
        rw [rowLE_iff] at hh'x
        rcases hh'x with h | ⟨hz, -⟩
        · omega
        · omega
      exact keyCmp_lt_of_lt_of_le hlt hle

/-- Key groups of a sorted stream carry pairwise strictly increasing keys. -/
theorem groupRuns_keys_pairwise :
    ∀ stream : List URow, stream.Pairwise rowLE →
      ((groupRuns stream).map groupKey).Pairwise
        (fun a b => keyCmp a b < 0) := by
  intro stream
  induction stream using groupRuns.induct with
  | case1 => intro _; simp [groupRuns]
  | case2 r rest ih =>
    intro hs
    rw [groupRuns]
    simp only [List.map_cons]
    refine List.pairwise_cons.mpr ⟨?_, ?_⟩
    · intro k' hk'
      obtain ⟨g, hg, rfl⟩ := List.mem_map.mp hk'
      obtain ⟨x, hx, hxk⟩ := groupRuns_mem_stream _ g hg
      rw [hxk]
      have hgk : groupKey
          (r :: rest.takeWhile (fun s => decide (s.key = r.key))) = r.key := by
        simp [groupKey]
      rw [hgk]
      exact dropWhile_key_gt hs x hx
    · exact ih (List.Pairwise.sublist (List.dropWhile_sublist _) hs.of_cons)

theorem foldl_del_eq_getLast? :
    ∀ (l : List URow) (b : Bool),
      l.foldl (fun _ s => s.del) b =
        (match l.getLast? with
         | none => b
         | some m => m.del) := by
  intro l
  induction l with
  | nil => intro b; rfl
  | cons a l ih =>
    intro b
    cases l with
    | nil => rfl
    | cons c l' =>
      rw [List.getLast?_cons_cons, List.foldl_cons]
      exact ih a.del

theorem getLast?_mem' :
    ∀ (l : List URow) (m : URow), l.getLast? = some m → m ∈ l := by
  intro l
  induction l with
  | nil => intro m hm; cases hm
  | cons a l ih =>
    intro m hm
    cases l with
    | nil =>
      rw [List.getLast?_singleton] at hm
      injection hm with hm; subst hm
      exact List.mem_cons_self _ _
    | cons c l' =>
      rw [List.getLast?_cons_cons] at hm
      exact List.mem_cons_of_mem _ (ih m hm)

theorem version_le_getLast? :
    ∀ (l : List URow) (m : URow), l.getLast? = some m →
      l.Pairwise (fun x y => x.version ≤ y.version) →
      ∀ x ∈ l, x.version ≤ m.version := by
  intro l
  induction l with
  | nil => intro m hm; cases hm
  | cons a l ih =>
    intro m hm hp x hx
    cases l with
    | nil =>
      rw [List.getLast?_singleton] at hm
      injection hm with hm; subst hm
      rcases List.mem_cons.mp hx with rfl | h
      · exact le_refl _
      · cases h
    | cons c l' =>
      rw [List.getLast?_cons_cons] at hm
      rcases List.mem_cons.mp hx with rfl | h
      · exact (List.pairwise_cons.mp hp).1 m (getLast?_mem' _ m hm)
      · exact ih m hm hp.of_cons x h

/-- Every key group of a sorted stream contains a row of maximal version
whose delete flag is the flag the group ends up with. -/
theorem groupRuns_newest_flag :
    ∀ stream : List URow, stream.Pairwise rowLE →
      ∀ g ∈ groupRuns stream, ∃ m ∈ g,
        (∀ x ∈ g, x.version ≤ m.version) ∧ groupDelFlag g = m.del := by
  intro stream
  induction stream using groupRuns.induct with
  | case1 => intro _ g hg; simp [groupRuns] at hg
  | case2 r rest ih =>
    intro hs g hg
    rw [groupRuns] at hg
    rcases List.mem_cons.mp hg with rfl | hm
    · -- the head group
      set tw := rest.takeWhile (fun s => decide (s.key = r.key)) with htw
      have hgs : (r :: tw).Pairwise rowLE :=
        List.Pairwise.sublist
          (List.Sublist.cons₂ r (htw ▸ List.takeWhile_sublist _)) hs
      have hkeys : ∀ x ∈ r :: tw, x.key = r.key := by
        intro x hx
        rcases List.mem_cons.mp hx with rfl | h
        · rfl
        · have := List.mem_takeWhile_imp (htw ▸ h)
          simpa using this
      have hvers : (r :: tw).Pairwise (fun x y => x.version ≤ y.version) := by
        refine List.Pairwise.imp_of_mem ?_ hgs
        intro a b ha hb hab
        rw [rowLE_iff] at hab
        rcases hab with h | ⟨-, h⟩
        · rw [hkeys a ha, hkeys b hb, keyCmp_self] at h
          omega
        · exact h
      obtain ⟨m, hm⟩ : ∃ m, (r :: tw).getLast? = some m := by
        cases hgl : (r :: tw).getLast? with
        | none => rw [List.getLast?_eq_none_iff] at hgl; cases hgl
        | some m => exact ⟨m, rfl⟩
      refine ⟨m, getLast?_mem' _ m hm, version_le_getLast? _ m hm hvers, ?_⟩
      have := foldl_del_eq_getLast? (r :: tw) false
      rw [hm] at this
      simpa [groupDelFlag] using this
    · exact ih (List.Pairwise.sublist (List.dropWhile_sublist _) hs.of_cons)
        g hm

theorem collectIterMerge_not_agg (rt : ReaderType) (kt : KeysType)
    (hkt : kt ≠ KeysType.dupKeys) : collectIterMerge rt false kt = true := by
  unfold collectIterMerge
  have hd : decide (kt = KeysType.dupKeys) = false := by
    cases hd : decide (kt = KeysType.dupKeys)
    · rfl
    · exact absurd (of_decide_eq_true hd) hkt
  simp [hd]

theorem readerStream_merge (rt : ReaderType) (kt : KeysType)
    (hkt : kt ≠ KeysType.dupKeys) (children : List (List URow)) :
    readerStream rt false kt children = mergeStream children := by
  simp [readerStream, collectIterMerge_not_agg rt kt hkt]

/-- A child whose rows are sorted by full key and share one segment version
is sorted in the heap-comparator order. -/
theorem child_pairwise_rowLE {c : List URow}
    (hk : c.Pairwise (fun a b => keyCmp a.key b.key ≤ 0))
    (hv : ∀ a ∈ c, ∀ b ∈ c, a.version = b.version) :
    c.Pairwise rowLE := by
  refine List.Pairwise.imp_of_mem ?_ hk
  intro a b ha hb hab
  rw [rowLE_iff]
  rcases lt_or_eq_of_le hab with h | h
  · exact Or.inl h
  · exact Or.inr ⟨h, le_of_eq (hv a ha b hb)⟩

/-- C1 (amended): for every UNIQUE_KEYS scan with `aggregation = false` (the
CollectIterator is then in merge mode for every reader type and the
throughput cap is inactive), over one merge set whose segment cursors
deliver key-sorted rows with one version per segment: the delete flag
applied to each merged key group is that of a maximal-version (latest) row
of the group; exactly the groups whose flag is set are dropped and counted
into `rows_del_filtered`, the others are emitted; the emitted keys are
strictly increasing, so no emitted row carries a delete flag. -/
theorem unique_key_scan_delete_semantics (rt : ReaderType) (limit : Nat)
    (children : List (List URow))
    (hkey : ∀ c ∈ children, c.Pairwise (fun a b => keyCmp a.key b.key ≤ 0))
    (hver : ∀ c ∈ children, ∀ a ∈ c, ∀ b ∈ c, a.version = b.version) :
    (∀ g ∈ groupRuns (readerStream rt false KeysType.uniqueKeys children),
        ∃ m ∈ g, (∀ x ∈ g, x.version ≤ m.version) ∧ groupDelFlag g = m.del) ∧
    (uniqueScan KeysType.uniqueKeys false limit
        (readerStream rt false KeysType.uniqueKeys children)).1 =
      ((groupRuns (readerStream rt false KeysType.uniqueKeys children)).filter
          (fun g => !groupDelFlag g)).map groupKey ∧
    (uniqueScan KeysType.uniqueKeys false limit
        (readerStream rt false KeysType.uniqueKeys children)).2 =
      ((groupRuns (readerStream rt false KeysType.uniqueKeys children)).filter
          (fun g => groupDelFlag g)).length ∧
    ((uniqueScan KeysType.uniqueKeys false limit
        (readerStream rt false KeysType.uniqueKeys children)).1).Pairwise
      (fun a b => keyCmp a b < 0) := by
  have hm : readerStream rt false KeysType.uniqueKeys children =
      mergeStream children :=
    readerStream_merge rt KeysType.uniqueKeys (by intro h; cases h) children
  have hsort : (mergeStream children).Pairwise rowLE :=
    mergeStream_sorted children
      (fun c hc => child_pairwise_rowLE (hkey c hc) (hver c hc))
  rw [hm]
  refine ⟨groupRuns_newest_flag _ hsort, ?_, ?_, ?_⟩
  · rw [uniqueScan_groups]
  · rw [uniqueScan_groups]
  · rw [uniqueScan_groups]
    exact List.Pairwise.sublist
      (List.Sublist.map groupKey (List.filter_sublist _))
      (groupRuns_keys_pairwise _ hsort)

theorem unique_key_scan_delete_semantics_witness :
    (∀ c ∈ [[URow.mk [1] 5 false, URow.mk [2] 5 true], [URow.mk [1] 7 true]],
        c.Pairwise (fun a b => keyCmp a.key b.key ≤ 0)) ∧
    (∀ c ∈ [[URow.mk [1] 5 false, URow.mk [2] 5 true], [URow.mk [1] 7 true]],
        ∀ a ∈ c, ∀ b ∈ c, a.version = b.version) ∧
    ((∀ g ∈ groupRuns (readerStream ReaderType.query false KeysType.uniqueKeys
          [[URow.mk [1] 5 false, URow.mk [2] 5 true], [URow.mk [1] 7 true]]),
        ∃ m ∈ g, (∀ x ∈ g, x.version ≤ m.version) ∧ groupDelFlag g = m.del) ∧
      (uniqueScan KeysType.uniqueKeys false 1024
          (readerStream ReaderType.query false KeysType.uniqueKeys
            [[URow.mk [1] 5 false, URow.mk [2] 5 true], [URow.mk [1] 7 true]])).1 =
        ((groupRuns (readerStream ReaderType.query false KeysType.uniqueKeys
            [[URow.mk [1] 5 false, URow.mk [2] 5 true], [URow.mk [1] 7 true]])).filter
            (fun g => !groupDelFlag g)).map groupKey ∧
      (uniqueScan KeysType.uniqueKeys false 1024
          (readerStream ReaderType.query false KeysType.uniqueKeys
            [[URow.mk [1] 5 false, URow.mk [2] 5 true], [URow.mk [1] 7 true]])).2 =
        ((groupRuns (readerStream ReaderType.query false KeysType.uniqueKeys
            [[URow.mk [1] 5 false, URow.mk [2] 5 true], [URow.mk [1] 7 true]])).filter
            (fun g => groupDelFlag g)).length ∧
      ((uniqueScan KeysType.uniqueKeys false 1024
          (readerStream ReaderType.query false KeysType.uniqueKeys
            [[URow.mk [1] 5 false, URow.mk [2] 5 true], [URow.mk [1] 7 true]])).1).Pairwise
        (fun a b => keyCmp a b < 0)) :=
  ⟨by decide, by decide,
    unique_key_scan_delete_semantics ReaderType.query 1024
      [[URow.mk [1] 5 false, URow.mk [2] 5 true], [URow.mk [1] 7 true]]
      (by decide) (by decide)⟩

/-- C1 counterexample: the claim quantifies over every UNIQUE_KEYS scan, but
a QUERY scan with `aggregation = true` puts the CollectIterator in concat
mode (reader.cpp:183-187).  With a newer segment holding a delete-marked
version of key `[1]` and an older segment holding a live one, the merged key
group's maximal-version row carries the delete flag, yet the row is emitted
and `rows_del_filtered` stays 0 — contradicting the claim that such a group
is dropped and counted. -/
theorem unique_key_scan_concat_emits_deleted :
    uniqueScan KeysType.uniqueKeys true 1024
        (readerStream ReaderType.query true KeysType.uniqueKeys
          [[URow.mk [1] 7 true], [URow.mk [1] 5 false]]) = ([[1]], 0) ∧
    groupRuns (readerStream ReaderType.query true KeysType.uniqueKeys
        [[URow.mk [1] 7 true], [URow.mk [1] 5 false]]) =
      [[URow.mk [1] 7 true, URow.mk [1] 5 false]] ∧
    (∀ x ∈ [URow.mk [1] 7 true, URow.mk [1] 5 false],
        x.version ≤ (URow.mk [1] 7 true).version) ∧
    (URow.mk [1] 7 true).del = true := by
  refine ⟨?_, ?_, by decide, rfl⟩
  · show uniqueScan KeysType.uniqueKeys true 1024
        [URow.mk [1] 7 true, URow.mk [1] 5 false] = ([[1]], 0)
    simp [uniqueScan, uniqueConsume]
  · show groupRuns [URow.mk [1] 7 true, URow.mk [1] 5 false] =
      [[URow.mk [1] 7 true, URow.mk [1] 5 false]]
    simp [groupRuns, List.takeWhile, List.dropWhile]

/-- C2 (amended): for every AGG_KEYS scan with `aggregation = false` (merge
mode, cap inactive), over one merge set with key-sorted constant-version
children, the emitted keys are non-descending under the full-key order and
no two consecutive emitted rows have equal keys. -/
theorem agg_key_scan_ordered (rt : ReaderType) (limit : Nat)
    (children : List (List URow))
    (hkey : ∀ c ∈ children, c.Pairwise (fun a b => keyCmp a.key b.key ≤ 0))
    (hver : ∀ c ∈ children, ∀ a ∈ c, ∀ b ∈ c, a.version = b.version) :
    (readerEmittedKeys rt false limit KeysType.aggKeys children).Chain'
      (fun a b => keyCmp a b ≤ 0) ∧
    (readerEmittedKeys rt false limit KeysType.aggKeys children).Chain'
      (fun a b => a ≠ b) := by
  have hm : readerStream rt false KeysType.aggKeys children =
      mergeStream children :=
    readerStream_merge rt KeysType.aggKeys (by intro h; cases h) children
  have hsort : (mergeStream children).Pairwise rowLE :=
    mergeStream_sorted children
      (fun c hc => child_pairwise_rowLE (hkey c hc) (hver c hc))
  have hp : ((groupRuns (mergeStream children)).map groupKey).Pairwise
      (fun a b => keyCmp a b < 0) := groupRuns_keys_pairwise _ hsort
  have he : readerEmittedKeys rt false limit KeysType.aggKeys children =
      (groupRuns (mergeStream children)).map groupKey := by
    simp only [readerEmittedKeys]
    rw [hm, aggScan_groups]
  rw [he]
  constructor
  · exact (hp.chain').imp (fun a b h => le_of_lt h)
  · refine (hp.chain').imp ?_
    intro a b h hab
    rw [hab, keyCmp_self] at h
    omega

theorem agg_key_scan_ordered_witness :
    (∀ c ∈ [[URow.mk [1] 5 false, URow.mk [3] 5 false], [URow.mk [1] 7 false]],
        c.Pairwise (fun a b => keyCmp a.key b.key ≤ 0)) ∧
    (∀ c ∈ [[URow.mk [1] 5 false, URow.mk [3] 5 false], [URow.mk [1] 7 false]],
        ∀ a ∈ c, ∀ b ∈ c, a.version = b.version) ∧
    ((readerEmittedKeys ReaderType.query false 1024 KeysType.aggKeys
        [[URow.mk [1] 5 false, URow.mk [3] 5 false], [URow.mk [1] 7 false]]).Chain'
      (fun a b => keyCmp a b ≤ 0) ∧
     (readerEmittedKeys ReaderType.query false 1024 KeysType.aggKeys
        [[URow.mk [1] 5 false, URow.mk [3] 5 false], [URow.mk [1] 7 false]]).Chain'
      (fun a b => a ≠ b)) :=
  ⟨by decide, by decide,
    agg_key_scan_ordered ReaderType.query 1024
      [[URow.mk [1] 5 false, URow.mk [3] 5 false], [URow.mk [1] 7 false]]
      (by decide) (by decide)⟩

/-- C2 counterexample: a QUERY scan with `aggregation = true` over an
AGG_KEYS tablet runs the CollectIterator in concat mode; with two children
whose keys are out of order the emitted key sequence descends, so the claim,
which quantifies over every AGG_KEYS scan, fails. -/
theorem agg_key_scan_concat_descending :
    readerEmittedKeys ReaderType.query true 1024 KeysType.aggKeys
        [[URow.mk [2] 1 false], [URow.mk [1] 1 false]] = [[2], [1]] ∧
    ¬ (readerEmittedKeys ReaderType.query true 1024 KeysType.aggKeys
        [[URow.mk [2] 1 false], [URow.mk [1] 1 false]]).Chain'
      (fun a b => keyCmp a b ≤ 0) := by
  have he : readerEmittedKeys ReaderType.query true 1024 KeysType.aggKeys
      [[URow.mk [2] 1 false], [URow.mk [1] 1 false]] = [[2], [1]] := by
    show aggScan true 1024 [URow.mk [2] 1 false, URow.mk [1] 1 false] = [[2], [1]]
    simp [aggScan, aggConsume]
  refine ⟨he, ?_⟩
  rw [he]
  intro hchain
  obtain ⟨h1, -⟩ := List.chain'_cons.mp hchain
  norm_num [keyCmp] at h1

theorem mem_insertDesc {x y : Nat} :
    ∀ {l : List Nat}, y ∈ insertDesc x l ↔ y = x ∨ y ∈ l := by
  intro l
  induction l with
  | nil => simp [insertDesc]
  | cons a l ih =>
    simp only [insertDesc]
    split
    · simp
    · simp only [List.mem_cons, ih]
      tauto

theorem mem_sortDesc {y : Nat} :
    ∀ {l : List Nat}, y ∈ sortDesc l ↔ y ∈ l := by
  intro l
  induction l with
  | nil => simp [sortDesc]
  | cons a l ih =>
    simp only [sortDesc, List.foldr_cons] at ih ⊢
    rw [mem_insertDesc, ih, List.mem_cons]

/-- C3 counterexample: for `reader_type = QUERY` the first branch of
`_init_return_columns` applies before the empty-list branch, so an empty
`return_columns` list stays empty instead of expanding to all (here two)
schema columns. -/
theorem init_return_columns_query_empty :
    initReturnColumns
        [⟨true, false, FieldType.bigint⟩, ⟨false, false, FieldType.bigint⟩]
        [] ReaderType.query false [] =
      Except.ok ⟨[], [], []⟩ ∧
    ([] : List Nat) ≠ List.range 2 := by
  constructor
  · rfl
  · decide

/-- C3 (amended): an empty `return_columns` list makes init use all schema
columns for every reader_type other than QUERY; QUERY uses the caller's
list, appending the delete-condition columns exactly when delete conditions
exist and `aggregation` is set (so an empty caller list stays empty
precisely when nothing is appended); and every reader_type other than QUERY
and CHECKSUM with a non-empty `return_columns` list fails with
INPUT_PARAMETER_ERROR. -/
theorem init_return_columns_rules (schema : List FieldInfo)
    (dels : List (List Nat)) (rt : ReaderType) (agg : Bool)
    (cols : List Nat) :
    (rt ≠ ReaderType.query → cols = [] →
      initReturnColumns schema dels rt agg cols =
        Except.ok ⟨List.range schema.length,
          sortDesc (classifyColumns schema (List.range schema.length)).1,
          (classifyColumns schema (List.range schema.length)).2⟩) ∧
    (rt = ReaderType.query → ¬ (dels.length ≠ 0 ∧ agg = true) →
      initReturnColumns schema dels rt agg cols =
        Except.ok ⟨cols, sortDesc (classifyColumns schema cols).1,
          (classifyColumns schema cols).2⟩) ∧
    (rt = ReaderType.query → dels.length ≠ 0 → agg = true →
      initReturnColumns schema dels rt agg cols =
        Except.ok ⟨appendDeleteColumns cols dels,
          sortDesc (classifyColumns schema cols).1,
          (classifyColumns schema cols).2⟩) ∧
    (rt ≠ ReaderType.query → rt ≠ ReaderType.checksum → cols ≠ [] →
      initReturnColumns schema dels rt agg cols =
        Except.error OLAPStatus.inputParameterError) := by
  refine ⟨?_, ?_, ?_, ?_⟩
  · intro h1 h2
    subst h2
    unfold initReturnColumns
    rw [if_neg h1]
    rfl
  · intro h1 h2
    subst h1
    unfold initReturnColumns
    rw [if_pos rfl, if_neg h2]
  · intro h1 h2 h3
    subst h1; subst h3
    unfold initReturnColumns
    rw [if_pos rfl, if_pos ⟨h2, rfl⟩]
  · intro h1 h2 h3
    unfold initReturnColumns
    rw [if_neg h1, if_neg (by simpa using h3), if_neg h2]

theorem init_return_columns_rules_witness :
    (initReturnColumns
        [⟨true, false, FieldType.bigint⟩, ⟨false, false, FieldType.bigint⟩]
        [] ReaderType.alterTable false [] =
      Except.ok ⟨List.range 2,
        sortDesc (classifyColumns
          [⟨true, false, FieldType.bigint⟩, ⟨false, false, FieldType.bigint⟩]
          (List.range 2)).1,
        (classifyColumns
          [⟨true, false, FieldType.bigint⟩, ⟨false, false, FieldType.bigint⟩]
          (List.range 2)).2⟩) ∧
    (initReturnColumns
        [⟨true, false, FieldType.bigint⟩, ⟨false, false, FieldType.bigint⟩]
        [] ReaderType.query false [0] =
      Except.ok ⟨[0],
        sortDesc (classifyColumns
          [⟨true, false, FieldType.bigint⟩, ⟨false, false, FieldType.bigint⟩]
          [0]).1,
        (classifyColumns
          [⟨true, false, FieldType.bigint⟩, ⟨false, false, FieldType.bigint⟩]
          [0]).2⟩) ∧
    (initReturnColumns
        [⟨true, false, FieldType.bigint⟩, ⟨false, false, FieldType.bigint⟩]
        [[1]] ReaderType.query true [] =
      Except.ok ⟨appendDeleteColumns [] [[1]],
        sortDesc (classifyColumns
          [⟨true, false, FieldType.bigint⟩, ⟨false, false, FieldType.bigint⟩]
          []).1,
        (classifyColumns
          [⟨true, false, FieldType.bigint⟩, ⟨false, false, FieldType.bigint⟩]
          []).2⟩) ∧
    (initReturnColumns
        [⟨true, false, FieldType.bigint⟩, ⟨false, false, FieldType.bigint⟩]
        [] ReaderType.baseCompaction false [0] =
      Except.error OLAPStatus.inputParameterError) :=
  ⟨(init_return_columns_rules _ [] ReaderType.alterTable false []).1
      (by decide) rfl,
    (init_return_columns_rules _ [] ReaderType.query false [0]).2.1 rfl
      (by decide),
    (init_return_columns_rules _ [[1]] ReaderType.query true []).2.2.1 rfl
      (by decide) rfl,
    (init_return_columns_rules _ [] ReaderType.baseCompaction false
      [0]).2.2.2 (by decide) (by decide) (by decide)⟩

/-- C9: during QUERY init with `aggregation = true` and at least one delete
condition, the delete-condition columns appended to `_return_columns` are
classified into neither `_key_cids` nor `_value_cids`: the key/value split
is computed from the caller-supplied `return_columns` only. -/
theorem query_delete_columns_not_classified (schema : List FieldInfo)
    (dels : List (List Nat)) (cols : List Nat) (out : ReturnColumnsOut)
    (hout : initReturnColumns schema dels ReaderType.query true cols =
      Except.ok out) :
    out.key_cids =
      sortDesc (cols.filter (fun id => (schema.getD id default).is_key)) ∧
    out.value_cids =
      cols.filter (fun id => !(schema.getD id default).is_key) ∧
    (∀ c ∈ out.return_columns, c ∉ cols →
      c ∉ out.key_cids ∧ c ∉ out.value_cids) := by
  unfold initReturnColumns at hout
  rw [if_pos rfl] at hout
  injection hout with hout
  subst hout
  refine ⟨rfl, rfl, ?_⟩
  intro c _ hc
  constructor
  · intro hmem
    simp only [ReturnColumnsOut.key_cids] at hmem
    rw [mem_sortDesc] at hmem
    exact hc (List.mem_of_mem_filter hmem)
  · intro hmem
    simp only [ReturnColumnsOut.value_cids] at hmem
    exact hc (List.mem_of_mem_filter hmem)

theorem query_delete_columns_not_classified_witness :
    (initReturnColumns
        [⟨true, false, FieldType.bigint⟩, ⟨false, false, FieldType.bigint⟩,
          ⟨false, false, FieldType.bigint⟩]
        [[2]] ReaderType.query true [0, 1] =
      Except.ok ⟨[0, 1, 2], [0], [1]⟩) ∧
    (ReturnColumnsOut.key_cids ⟨[0, 1, 2], [0], [1]⟩ =
      sortDesc ([0, 1].filter (fun id =>
        (List.getD ([⟨true, false, FieldType.bigint⟩,
          ⟨false, false, FieldType.bigint⟩,
          ⟨false, false, FieldType.bigint⟩] : List FieldInfo) id default).is_key)) ∧
    ReturnColumnsOut.value_cids ⟨[0, 1, 2], [0], [1]⟩ =
      [0, 1].filter (fun id =>
        !(List.getD ([⟨true, false, FieldType.bigint⟩,
          ⟨false, false, FieldType.bigint⟩,
          ⟨false, false, FieldType.bigint⟩] : List FieldInfo) id default).is_key) ∧
    (∀ c ∈ ReturnColumnsOut.return_columns ⟨[0, 1, 2], [0], [1]⟩,
      c ∉ [0, 1] →
      c ∉ ReturnColumnsOut.key_cids ⟨[0, 1, 2], [0], [1]⟩ ∧
      c ∉ ReturnColumnsOut.value_cids ⟨[0, 1, 2], [0], [1]⟩)) :=
  ⟨rfl,
    query_delete_columns_not_classified
      [⟨true, false, FieldType.bigint⟩, ⟨false, false, FieldType.bigint⟩,
        ⟨false, false, FieldType.bigint⟩]
      [[2]] [0, 1] ⟨[0, 1, 2], [0], [1]⟩ rfl⟩

/-- C4 counterexample: a segment whose freshly initialized cursor has no
current row makes `ChildCtx::init` return `OLAP_ERR_DATA_EOF`, which
`RETURN_NOT_OK` propagates out of `add_child`: the child is discarded, but
the status is DATA_EOF, not OK as the claim states. -/
theorem add_child_empty_returns_eof :
    (childInit (fun _ _ => false) ⟨5, []⟩).2 = none ∧
    addChild (fun _ _ => false) [] ⟨5, []⟩ = (OLAPStatus.dataEof, []) ∧
    OLAPStatus.dataEof ≠ OLAPStatus.success :=
  ⟨rfl, rfl, by decide⟩

/-- C4 (amended): whenever the freshly initialized SegmentCursor has no
current row, `add_child` discards the child — the children list is
unchanged, nothing is pushed — and returns `OLAP_ERR_DATA_EOF`, which the
caller `_attach_data_to_merge_set` treats as non-fatal (reader.cpp:751). -/
theorem add_child_no_current_row (filt : Nat → URow → Bool)
    (children : List ChildData) (d : ChildData)
    (h : (childInit filt d).2 = none) :
    addChild filt children d = (OLAPStatus.dataEof, children) := by
  have h1 : childInit filt d = (OLAPStatus.dataEof, none) := by
    unfold childInit at h ⊢
    cases hr : (refreshBlocks filt d.version d.blocks).1
    · rfl
    · rw [hr] at h
      simp at h
  unfold addChild
  rw [h1]
  simp

theorem add_child_no_current_row_witness :
    (childInit (fun _ _ => false)
        ⟨7, [⟨[], BlockStatus.delNotSatisfied⟩]⟩).2 = none ∧
    addChild (fun _ _ => false) [⟨1, []⟩]
        ⟨7, [⟨[], BlockStatus.delNotSatisfied⟩]⟩ =
      (OLAPStatus.dataEof, [⟨1, []⟩]) :=
  ⟨rfl, add_child_no_current_row (fun _ _ => false) [⟨1, []⟩]
    ⟨7, [⟨[], BlockStatus.delNotSatisfied⟩]⟩ rfl⟩

/-- C5: `close` is not idempotent.  Because `close` leaves every member
unchanged, a second call (e.g. the destructor after an explicit `close`)
deletes the same `_collect_iter` pointer and the same predicate pointers a
second time — a double free — contradicting the claim. -/
theorem reader_close_double_free :
    (readerCloseTwice ⟨[3], [5], 1⟩).count (CloseEvent.deleteCollectIter 1)
      = 2 ∧
    (readerCloseTwice ⟨[3], [5], 1⟩).count (CloseEvent.deletePredicate 5)
      = 2 ∧
    ∀ s : ReaderCloseState, (readerClose s).2 = s :=
  ⟨by decide, by decide, fun _ => rfl⟩

/-- C6: for a scan range with a non-null end key (end keys present and in
bounds) and a valid `end_range` token, `range = "gt"` with
`start_key ≥ end_key` and `range = "ge"` with `start_key > end_key` return
immediate EOF — eof = true with OLAP_SUCCESS — and no segment cursor is
added for that range. -/
theorem attach_early_eof (first : Bool) (kp : KeysParam) (idx : Nat)
    (hidx : idx < kp.start_keys.length) (hlen : idx < kp.end_keys.length)
    (hend : kp.end_range = "lt" ∨ kp.end_range = "le") :
    (kp.range = "gt" →
      keyCmp (kp.start_keys.getD idx []) (kp.end_keys.getD idx []) ≥ 0 →
      attachResolveRange first kp idx = AttachOutcome.eofOut ∧
        attachAddsCursors (attachResolveRange first kp idx) = false) ∧
    (kp.range = "ge" →
      keyCmp (kp.start_keys.getD idx []) (kp.end_keys.getD idx []) > 0 →
      attachResolveRange first kp idx = AttachOutcome.eofOut ∧
        attachAddsCursors (attachResolveRange first kp idx) = false) := by
  have hdisp : ∀ (e : List Int) (efl : Bool) (sk : List Int),
      attachRangeDispatch kp sk (some e) efl =
        (if kp.range = "gt" then
          (if keyCmp sk e ≥ 0 then AttachOutcome.eofOut
           else AttachOutcome.scan (some sk) (some e) true efl)
        else if kp.range = "ge" then
          (if keyCmp sk e > 0 then AttachOutcome.eofOut
           else AttachOutcome.scan (some sk) (some e) false efl)
        else if kp.range = "eq" then
          AttachOutcome.scan (some sk) (some sk) false true
        else AttachOutcome.errOut OLAPStatus.readerGetIteratorError) :=
    fun _ _ _ => rfl
  unfold attachResolveRange
  rw [if_pos (by omega), if_neg (by omega),
    if_pos (by intro hz; omega), if_neg (by omega)]
  rcases hend with he | he
  · rw [if_pos he, hdisp]
    constructor
    · intro hr hcmp
      rw [if_pos hr, if_pos hcmp]
      exact ⟨rfl, rfl⟩
    · intro hr hcmp
      have hne : kp.range ≠ "gt" := by rw [hr]; decide
      rw [if_neg hne, if_pos hr, if_pos hcmp]
      exact ⟨rfl, rfl⟩
  · rw [if_neg (by rw [he]; decide), if_pos he, hdisp]
    constructor
    · intro hr hcmp
      rw [if_pos hr, if_pos hcmp]
      exact ⟨rfl, rfl⟩
    · intro hr hcmp
      have hne : kp.range ≠ "gt" := by rw [hr]; decide
      rw [if_neg hne, if_pos hr, if_pos hcmp]
      exact ⟨rfl, rfl⟩

theorem attach_early_eof_witness :
    (attachResolveRange true ⟨"gt", "le", [[3]], [[3]]⟩ 0 =
        AttachOutcome.eofOut ∧
      attachAddsCursors (attachResolveRange true ⟨"gt", "le", [[3]], [[3]]⟩ 0)
        = false) ∧
    (attachResolveRange true ⟨"ge", "lt", [[4]], [[3]]⟩ 0 =
        AttachOutcome.eofOut ∧
      attachAddsCursors (attachResolveRange true ⟨"ge", "lt", [[4]], [[3]]⟩ 0)
        = false) :=
  ⟨(attach_early_eof true ⟨"gt", "le", [[3]], [[3]]⟩ 0 (by decide) (by decide)
      (Or.inr rfl)).1 rfl (by decide),
    (attach_early_eof true ⟨"ge", "lt", [[4]], [[3]]⟩ 0 (by decide) (by decide)
      (Or.inl rfl)).2 rfl (by decide)⟩

theorem attachRangeDispatch_ne_oob (kp : KeysParam) (startKey : List Int)
    (endKey : Option (List Int)) (efl : Bool) :
    attachRangeDispatch kp startKey endKey efl ≠ AttachOutcome.oobAccess := by
  unfold attachRangeDispatch
  by_cases h1 : kp.range = "gt"
  · rw [if_pos h1]
    cases endKey with
    | none => simp
    | some e => by_cases h2 : keyCmp startKey e ≥ 0 <;> simp [h2]
  · rw [if_neg h1]
    by_cases h3 : kp.range = "ge"
    · rw [if_pos h3]
      cases endKey with
      | none => simp
      | some e => by_cases h4 : keyCmp startKey e > 0 <;> simp [h4]
    · rw [if_neg h3]
      by_cases h5 : kp.range = "eq"
      · rw [if_pos h5]; simp
      · rw [if_neg h5]; simp

/-- C8: under the KeysParam contract — `end_keys` as long as `start_keys`,
or empty — the unchecked `end_keys[cur_key_index]` access of the scan-range
driver is always in bounds; and for an input violating the contract
(`end_keys` non-empty but shorter than `start_keys`) the access indexes out
of bounds, witnessed at a concrete input on its second range. -/
theorem attach_end_keys_access :
    (∀ (first : Bool) (kp : KeysParam) (idx : Nat),
      (kp.end_keys.length = kp.start_keys.length ∨ kp.end_keys = []) →
      attachResolveRange first kp idx ≠ AttachOutcome.oobAccess) ∧
    attachResolveRange true ⟨"ge", "le", [[1], [2]], [[5]]⟩ 1 =
      AttachOutcome.oobAccess := by
  constructor
  · intro first kp idx hc
    unfold attachResolveRange
    by_cases h1 : kp.start_keys.length > 0
    · rw [if_pos h1]
      by_cases h2 : idx ≥ kp.start_keys.length
      · rw [if_pos h2]; simp
      · rw [if_neg h2]
        by_cases h3 : kp.end_keys.length ≠ 0
        · rw [if_pos h3]
          have h4 : ¬ idx ≥ kp.end_keys.length := by
            rcases hc with h | h
            · omega
            · rw [h] at h3; simp at h3
          rw [if_neg h4]
          by_cases h5 : kp.end_range = "lt"
          · rw [if_pos h5]
            exact attachRangeDispatch_ne_oob _ _ _ _
          · rw [if_neg h5]
            by_cases h6 : kp.end_range = "le"
            · rw [if_pos h6]
              exact attachRangeDispatch_ne_oob _ _ _ _
            · rw [if_neg h6]; simp
        · rw [if_neg h3]
          exact attachRangeDispatch_ne_oob _ _ _ _
    · rw [if_neg h1]
      by_cases h7 : first = false
      · rw [if_pos h7]; simp
      · rw [if_neg h7]; simp
  · rfl

theorem attach_end_keys_access_witness :
    attachResolveRange true ⟨"ge", "le", [[1], [2]], [[5], [6]]⟩ 1 ≠
      AttachOutcome.oobAccess :=
  attach_end_keys_access.1 true ⟨"ge", "le", [[1], [2]], [[5], [6]]⟩ 1
    (Or.inl rfl)

theorem foldl_erase_not_mem_of_not_mem :
    ∀ (l : List Nat) (s : Finset Nat) (i : Nat), i ∉ s →
      i ∉ l.foldl (fun t j => t.erase j) s := by
  intro l
  induction l with
  | nil => intro s i h; exact h
  | cons a l ih =>
    intro s i h
    exact ih (s.erase a) i (fun hm => h (Finset.mem_of_mem_erase hm))

theorem foldl_erase_not_mem_of_mem :
    ∀ (l : List Nat) (s : Finset Nat) (i : Nat), i ∈ l →
      i ∉ l.foldl (fun t j => t.erase j) s := by
  intro l
  induction l with
  | nil => intro s i h; cases h
  | cons a l ih =>
    intro s i h
    rcases List.mem_cons.mp h with rfl | hm
    · exact foldl_erase_not_mem_of_not_mem l (s.erase i) i
        (Finset.not_mem_erase i s)
    · exact ih _ i hm

theorem eqPrefLen_le : ∀ (n : Nat) (a b : List Nat), eqPrefLen a b n ≤ n := by
  intro n
  induction n with
  | zero => intro a b; cases a <;> cases b <;> simp [eqPrefLen]
  | succ n ih =>
    intro a b
    cases a with
    | nil => cases b <;> simp [eqPrefLen]
    | cons x xs =>
      cases b with
      | nil => simp [eqPrefLen]
      | cons y ys =>
        simp only [eqPrefLen]
        split
        · exact Nat.succ_le_succ (ih xs ys)
        · omega

theorem foldl_min_le : ∀ (l : List Nat) (x : Nat), l.foldl min x ≤ x := by
  intro l
  induction l with
  | nil => intro x; exact le_refl x
  | cons a l ih =>
    intro x
    exact le_trans (ih (min x a)) (min_le_left x a)

theorem minScanKeyLen_le (inp : BfInput) :
    minScanKeyLen inp ≤ inp.schema.length :=
  foldl_min_le _ _

theorem foldl_max_le (L : Int) :
    ∀ (l : List Nat) (f : Nat → Int) (m : Int), m ≤ L → (∀ i, f i ≤ L) →
      l.foldl (fun m i => max m (f i)) m ≤ L := by
  intro l
  induction l with
  | nil => intro f m hm _; exact hm
  | cons a l ih =>
    intro f m hm hf
    exact ih f _ (max_le hm (hf a)) hf

theorem maxEqualIndex_le (inp : BfInput) :
    maxEqualIndex inp ≤ (minScanKeyLen inp : Int) - 1 := by
  unfold maxEqualIndex
  apply foldl_max_le
  · have : (0 : Int) ≤ (minScanKeyLen inp : Int) := Int.ofNat_nonneg _
    omega
  · intro i
    have := eqPrefLen_le (minScanKeyLen inp)
      (inp.startKey.getD i []) (inp.endKey.getD i [])
    omega

theorem toUInt32Nat_eq {i : Int} (h0 : 0 ≤ i) (h1 : i < 4294967296) :
    toUInt32Nat i = i.toNat := by
  unfold toUInt32Nat
  rw [Int.emod_eq_of_lt h0 h1]

/-- C7: with well-formed scan keys (`end_key` as long as `start_key`) and a
`uint32_t`-indexable schema, after `_init_load_bf_columns`: every column id
strictly below `max_equal_index` has been removed from `_load_bf_columns`;
and `max_equal_index` itself (when ≥ 0, i.e. an actual column index) is
absent from the final set exactly when its field type is neither VARCHAR
nor HLL, or `max_equal_index + 1` exceeds `num_short_key_fields`, or it was
already absent before that final erase. -/
theorem load_bf_columns_erasures (inp : BfInput) (oob : FieldType)
    (hlen : inp.endKey.length = inp.startKey.length)
    (hsz : inp.schema.length < 4294967296) :
    (∀ i : Nat, (i : Int) < maxEqualIndex inp →
      i ∉ (initLoadBfColumns inp oob).loadBfColumns) ∧
    (0 ≤ maxEqualIndex inp →
      ((maxEqualIndex inp).toNat ∉ (initLoadBfColumns inp oob).loadBfColumns ↔
        (bfMaxEraseCond inp oob ∨
          (maxEqualIndex inp).toNat ∉ bfBeforeMaxErase inp))) := by
  constructor
  · intro i hi
    have him : i ∉ bfBeforeMaxErase inp := by
      apply foldl_erase_not_mem_of_mem
      rw [List.mem_range]
      omega
    simp only [initLoadBfColumns]
    split
    · intro hmem
      exact him (Finset.mem_of_mem_erase hmem)
    · exact him
  · intro hm
    have htn : toUInt32Nat (maxEqualIndex inp) = (maxEqualIndex inp).toNat := by
      apply toUInt32Nat_eq hm
      have h1 := maxEqualIndex_le inp
      have h2 := minScanKeyLen_le inp
      omega
    simp only [initLoadBfColumns]
    split
    · rename_i hcond
      rw [htn]
      constructor
      · intro _; exact Or.inl hcond
      · intro _; exact Finset.not_mem_erase _ _
    · rename_i hcond
      constructor
      · intro h; exact Or.inr h
      · intro h
        rcases h with h | h
        · exact absurd h hcond
        · exact h

theorem load_bf_columns_erasures_witness :
    (∀ i : Nat, (i : Int) < maxEqualIndex bfSampleInput →
      i ∉ (initLoadBfColumns bfSampleInput FieldType.unknown).loadBfColumns) ∧
    (0 ≤ maxEqualIndex bfSampleInput →
      ((maxEqualIndex bfSampleInput).toNat ∉
          (initLoadBfColumns bfSampleInput FieldType.unknown).loadBfColumns ↔
        (bfMaxEraseCond bfSampleInput FieldType.unknown ∨
          (maxEqualIndex bfSampleInput).toNat ∉
            bfBeforeMaxErase bfSampleInput))) :=
  load_bf_columns_erasures bfSampleInput FieldType.unknown rfl (by decide)

/-- C10: for every init with an empty `start_key` list (a full-tablet
scan), `max_equal_index` stays `-1`, `get_field_type_by_index` is invoked
with argument `-1` — which is not a valid schema index — and the
conditional erase targets index `-1`, which the `uint32_t` conversion of
`std::set<uint32_t>::erase` turns into `4294967295`. -/
theorem load_bf_columns_empty_start_key (inp : BfInput) (oob : FieldType)
    (h : inp.startKey = []) :
    maxEqualIndex inp = -1 ∧
    (initLoadBfColumns inp oob).fieldTypeArg = -1 ∧
    ¬ (0 ≤ (initLoadBfColumns inp oob).fieldTypeArg ∧
        ((initLoadBfColumns inp oob).fieldTypeArg).toNat <
          inp.schema.length) ∧
    toUInt32Nat (maxEqualIndex inp) = 4294967295 := by
  have hm : maxEqualIndex inp = -1 := by
    unfold maxEqualIndex
    rw [h]
    rfl
  have harg : (initLoadBfColumns inp oob).fieldTypeArg = -1 := by
    simp [initLoadBfColumns, hm]
  refine ⟨hm, harg, ?_, ?_⟩
  · rw [harg]
    intro hc
    exact absurd hc.1 (by decide)
  · rw [hm]
    decide

theorem load_bf_columns_empty_start_key_witness :
    maxEqualIndex ⟨[(0, [(CondOp.opEq, 1)])],
        [⟨true, true, FieldType.varchar⟩], [], [], 1, 100⟩ = -1 ∧
    (initLoadBfColumns ⟨[(0, [(CondOp.opEq, 1)])],
        [⟨true, true, FieldType.varchar⟩], [], [], 1, 100⟩
      FieldType.unknown).fieldTypeArg = -1 ∧
    ¬ (0 ≤ (initLoadBfColumns ⟨[(0, [(CondOp.opEq, 1)])],
        [⟨true, true, FieldType.varchar⟩], [], [], 1, 100⟩
          FieldType.unknown).fieldTypeArg ∧
        ((initLoadBfColumns ⟨[(0, [(CondOp.opEq, 1)])],
        [⟨true, true, FieldType.varchar⟩], [], [], 1, 100⟩
          FieldType.unknown).fieldTypeArg).toNat < 1) ∧
    toUInt32Nat (maxEqualIndex ⟨[(0, [(CondOp.opEq, 1)])],
        [⟨true, true, FieldType.varchar⟩], [], [], 1, 100⟩) = 4294967295 :=
  load_bf_columns_empty_start_key
    ⟨[(0, [(CondOp.opEq, 1)])], [⟨true, true, FieldType.varchar⟩],
      [], [], 1, 100⟩ FieldType.unknown rfl

end Doris
